import Mathlib

/-!
Verification development for the `timetracker.py` repository.

The Python source is shallowly embedded: datetimes become a record of
calendar fields, timers a record of (name, comment, start, optional end),
stateful functions become pure functions on the timer sequence, printing
becomes a list of structured output events, and fallible code returns
`Option`.  Machine-level details (Qt gui, file descriptors, backup copies)
are outside the embedded core, as are the Python standard-library
internals: regular-expression matching in name resolution is abstracted as
an arbitrary partial Boolean matcher, whose failure (`none`) models the
`re.error` raised on a malformed pattern.
-/

namespace TimeTracker

/-- A naive datetime, mirroring the fields of Python's `datetime.datetime`
(microseconds are always zeroed by the program). -/
structure DT where
  y : Nat
  mo : Nat
  d : Nat
  h : Nat
  mi : Nat
  s : Nat
deriving DecidableEq

/-- Gregorian leap year test, as in Python's `calendar.isleap`. -/
def isLeapYear (y : Nat) : Bool :=
  y % 4 == 0 && (y % 100 != 0 || y % 400 == 0)

/-- Days in a month, as in Python's `calendar.monthrange`. -/
def daysInMonth (y mo : Nat) : Nat :=
  if mo = 2 then (if isLeapYear y then 29 else 28)
  else if mo = 4 ∨ mo = 6 ∨ mo = 9 ∨ mo = 11 then 30
  else 31

/-- Days before January 1 of year `y`, as in Python's `datetime._days_before_year`. -/
def daysBeforeYear (y : Nat) : Nat :=
  365 * (y - 1) + (y - 1) / 4 - (y - 1) / 100 + (y - 1) / 400

/-- Days in year `y` before month `mo`, as in Python's `datetime._days_before_month`. -/
def daysBeforeMonth (y mo : Nat) : Nat :=
  (List.range (mo - 1)).foldl (fun a i => a + daysInMonth y (i + 1)) 0

/-- Proleptic Gregorian ordinal of the date, January 1 of year 1 having
ordinal 1; Python's `datetime.toordinal()`. -/
def toordinal (dt : DT) : Nat :=
  daysBeforeYear dt.y + daysBeforeMonth dt.y dt.mo + dt.d

/-- Seconds since the proleptic epoch; datetime comparison and subtraction
in the source are modelled through this linearisation. -/
def toSec (dt : DT) : Nat :=
  toordinal dt * 86400 + dt.h * 3600 + dt.mi * 60 + dt.s

/-- Python's `datetime.weekday()`: Monday is 0. -/
def weekday (dt : DT) : Nat :=
  (toordinal dt - 1) % 7

/-- Ordinal of the Monday starting ISO week 1 of year `y`, as in Python's
`datetime._isoweek1monday`. -/
def week1Monday (y : Nat) : Int :=
  let fd : Int := toordinal ⟨y, 1, 1, 0, 0, 0⟩
  let wd : Int := (fd - 1) % 7
  if wd ≤ 3 then fd - wd else fd - wd + 7

/-- The ISO week number, `datetime.isocalendar()[1]` in Python. -/
def isoWeekNum (dt : DT) : Int :=
  let today : Int := toordinal dt
  let w1 := week1Monday dt.y
  if today < w1 then
    (today - week1Monday (dt.y - 1)).fdiv 7 + 1
  else
    let wk := (today - w1).fdiv 7
    if 52 ≤ wk && week1Monday (dt.y + 1) ≤ today then 1 else wk + 1

/-- `same_day` from the source: equality of `toordinal`. -/
def same_day (a b : DT) : Bool :=
  toordinal a == toordinal b

/-- `same_week` from the source: same year, same month and same ISO week
number. -/
def same_week (a b : DT) : Bool :=
  a.y == b.y && a.mo == b.mo && isoWeekNum a == isoWeekNum b

/-- `same_month` from the source: same year and same month. -/
def same_month (a b : DT) : Bool :=
  a.y == b.y && a.mo == b.mo

/-- Python's `str.strip()` character class. -/
def isPySpace (c : Char) : Bool :=
  c == ' ' || c == '\t' || c == '\n' || c == '\r' || c == '\x0b' || c == '\x0c'

/-- Python's `str.strip()` on a character list. -/
def pyStripChars (cs : List Char) : List Char :=
  ((cs.dropWhile isPySpace).reverse.dropWhile isPySpace).reverse

/-- The character class of the regex `\w` (Python 2 default: ASCII). -/
def isWordChar (c : Char) : Bool :=
  c.isAlphanum || c == '_'

/-- Fuel-bounded scanner behind `findTags`; the fuel dominates the length
of the list, so the fuel-out branch is never taken. -/
def findTagsAux : Nat → List Char → List String
  | 0, _ => []
  | _, [] => []
  | fuel + 1, c :: rest =>
    if c == '@' && (match rest with | r :: _ => isWordChar r | [] => false) then
      String.mk ('@' :: rest.takeWhile isWordChar) ::
        findTagsAux fuel (rest.dropWhile isWordChar)
    else
      findTagsAux fuel rest

/-- All matches of the regex `(@\w+)` in scan order, non-overlapping, as
returned by `re.findall` in `Timer.__init__`. -/
def findTags (cs : List Char) : List String :=
  findTagsAux cs.length cs

/-- Fuel-bounded recursion behind `dedupFirst`. -/
def dedupFirstAux : Nat → List String → List String
  | 0, _ => []
  | _, [] => []
  | fuel + 1, x :: rest => x :: dedupFirstAux fuel (rest.filter (fun y => y ≠ x))

/-- Removing duplicates keeping the first occurrence; the order of a
Python `frozenset` is irrelevant to every claim, only membership and
cardinality matter. -/
def dedupFirst (l : List String) : List String :=
  dedupFirstAux l.length l


/-- One tracked interval: the fields stored by `Timer.__init__`
(`tags` is derived from name and comment, see `Timer.tags`). -/
structure Timer where
  name : String
  comment : String
  start : DT
  end_ : Option DT
deriving DecidableEq

/-- The tag set of a timer: words prefixed by the tag character in
`name + " " + comment`, defaulting to `{"No tags"}`, from `Timer.__init__`. -/
def Timer.tags (t : Timer) : List String :=
  let found := dedupFirst (findTags (t.name ++ " " ++ t.comment).data)
  if found = [] then ["No tags"] else found

/-- `Timer.__init__`: name and comment are stripped. -/
def mkTimer (name comment : String) (start : DT) (end_ : Option DT) : Timer :=
  ⟨String.mk (pyStripChars name.data), String.mk (pyStripChars comment.data), start, end_⟩

/-- `Timer.active()`. -/
def Timer.active (t : Timer) : Bool :=
  t.end_ == none

/-- `Timer.duration()` in seconds.  For an active timer the source samples
the wall clock afresh; that sample is the `cur` argument. -/
def Timer.duration (t : Timer) (cur : DT) : Int :=
  (toSec (t.end_.getD cur) : Int) - (toSec t.start : Int)

/-- The body of the `stop_timer` loop, which walks the sequence from the
last element backward; this function receives the reversed suffix still to
be scanned.  The four branches mirror the source: collapse when `now`
precedes the start, close an active timer, clamp a closed end that `now`
precedes, otherwise break, leaving the rest of the (reversed) list
untouched. -/
def repairRev (now : DT) : List Timer → List Timer
  | [] => []
  | t :: rest =>
    if toSec now < toSec t.start then
      ⟨t.name, t.comment, now, some now⟩ :: repairRev now rest
    else if t.active then
      ⟨t.name, t.comment, t.start, some now⟩ :: repairRev now rest
    else if toSec now < toSec (t.end_.getD now) then
      ⟨t.name, t.comment, t.start, some now⟩ :: repairRev now rest
    else
      t :: rest

/-- `stop_timer()` from the source, as a function of the fixed `now` and
the timer sequence. -/
def stop_timer (now : DT) (ts : List Timer) : List Timer :=
  (repairRev now ts.reverse).reverse

/-- `start_timer(name, comment)`: append a new active timer starting at
`now`. -/
def start_timer (name comment : String) (now : DT) (ts : List Timer) : List Timer :=
  ts ++ [mkTimer name comment now none]

/-- The search loop of `resolve_name`: first timer (in the traversal
order of the given list) whose name the matcher accepts.  `m pat text`
abstracts the library call `re.search(pat, text)`: `some true` a match,
`some false` no match, and `none` the `re.error` raised on a malformed
pattern, which propagates out of the loop (the outer `none`).  A
successful scan with no match is `some none`. -/
def searchRev (m : String → String → Option Bool) (pat : String) :
    List Timer → Option (Option String)
  | [] => some none
  | t :: rest =>
    match m pat t.name with
    | none => none
    | some true => some (some t.name)
    | some false => searchRev m pat rest

/-- `resolve_name(name)` from the source, with the explicit flag and the
regular-expression matcher passed in; `none` models the uncaught
`re.error` aborting the invocation.  With the explicit flag (or an empty
timer sequence) no search is performed and resolution cannot fail. -/
def resolve_name (explicit : Bool) (m : String → String → Option Bool)
    (ts : List Timer) (name : String) : Option String :=
  if explicit = false then (searchRev m name ts.reverse).map (fun r => r.getD name)
  else some name

/-- Modelled from the library behavior of `re.search`: the pattern `"("`
does not compile (missing closing parenthesis), so every search with it
raises `re.error`; a concrete matcher exhibiting exactly that failure
mode. -/
def reSearchUnbalanced : String → String → Option Bool :=
  fun pat _ => if pat = "(" then none else some false

/-- A pair of name-keyed and tag-keyed duration tallies; the Python dicts
are modelled as association lists (dict ordering never reaches any claim,
only lookups and value sums do). -/
abbrev Tally := List (String × Int) × List (String × Int)

/-- `total[k] += d` with defaulting insertion, the dict update pattern of
`add_duration`. -/
def upsert : List (String × Int) → String → Int → List (String × Int)
  | [], k, d => [(k, d)]
  | (k', v) :: rest, k, d =>
    if k' = k then (k', v + d) :: rest else (k', v) :: upsert rest k d

/-- `add_duration(timer, total)` from the source. -/
def add_duration (cur : DT) (t : Timer) (total : Tally) : Tally :=
  (upsert total.1 t.name (t.duration cur),
   t.tags.foldl (fun m tg => upsert m tg (t.duration cur)) total.2)

/-- Eight weekday slots (Mon..Sun plus a row total), the per-name rows of
the calendar report. -/
abbrev Vec8 := List Int

/-- `total[n][i] += d` on an 8-slot row. -/
def addSlot (l : Vec8) (i : Nat) (d : Int) : Vec8 :=
  l.set i (l.getD i 0 + d)

/-- The weekly calendar tallies: name and tag keyed rows of 8 slots. -/
abbrev WTally := List (String × Vec8) × List (String × Vec8)

/-- Dict update with 8-slot rows: initialise with zeros when absent, then
bump the weekday slot and the total slot, as in `add_duration_week`. -/
def upsertVec : List (String × Vec8) → String → Nat → Int → List (String × Vec8)
  | [], k, day, d => [(k, addSlot (addSlot (List.replicate 8 0) day d) 7 d)]
  | (k', v) :: rest, k, day, d =>
    if k' = k then (k', addSlot (addSlot v day d) 7 d) :: rest
    else (k', v) :: upsertVec rest k day d

/-- `add_duration_week(timer, total)` from the source. -/
def add_duration_week (cur : DT) (t : Timer) (total : WTally) : WTally :=
  (upsertVec total.1 t.name (weekday t.start) (t.duration cur),
   t.tags.foldl (fun m tg => upsertVec m tg (weekday t.start) (t.duration cur)) total.2)

/-- Output events of the linear report: the user message, and the daily,
weekly and monthly section flushes with the date and tally they print. -/
inductive REv
  | msg (s : String)
  | daily (d : DT) (t : Tally)
  | weekly (d : DT) (t : Tally)
  | monthly (d : DT) (t : Tally)
deriving DecidableEq

/-- The loop of `report()`: on each day/week/month boundary flush and
reset that tally; afterwards accumulate the timer into all three; at the
end flush all three. -/
def reportLoop (cur prev : DT) (dTot wTot mTot : Tally) : List Timer → List REv
  | [] => [.daily prev dTot, .weekly prev wTot, .monthly prev mTot]
  | t :: rest =>
    let dF := if same_day prev t.start then (([] : List REv), dTot)
              else ([REv.daily prev dTot], (([], []) : Tally))
    let wF := if same_week prev t.start then (([] : List REv), wTot)
              else ([REv.weekly prev wTot], (([], []) : Tally))
    let mF := if same_month prev t.start then (([] : List REv), mTot)
              else ([REv.monthly prev mTot], (([], []) : Tally))
    dF.1 ++ wF.1 ++ mF.1 ++
      reportLoop cur t.start (add_duration cur t dF.2) (add_duration cur t wF.2)
        (add_duration cur t mF.2) rest

/-- `report()` from the source, as the list of output events. -/
def report (cur : DT) (ts : List Timer) : List REv :=
  match ts with
  | [] => [.msg "No timers to report"]
  | t0 :: _ => reportLoop cur t0.start ([], []) ([], []) ([], []) ts

/-- Output events of the calendar report. -/
inductive CEv
  | msg (s : String)
  | sep
  | weeklyCal (d : DT) (t : WTally)
  | monthly (d : DT) (t : Tally)
deriving DecidableEq

/-- The loop state of `report_cal()`: previous start date, weekly tally,
monthly tally. -/
structure CalSt where
  prev : DT
  w : WTally
  m : Tally
deriving DecidableEq

/-- One iteration of the `report_cal()` loop: on a month change flush the
weekly and the monthly tally and reset both, on a mere week change flush
only the weekly tally; then accumulate the timer. -/
def calStep (cur : DT) (st : CalSt) (t : Timer) : List CEv × CalSt :=
  if same_month st.prev t.start = false then
    ([.weeklyCal st.prev st.w, .monthly st.prev st.m, .sep],
     ⟨t.start, add_duration_week cur t ([], []), add_duration cur t ([], [])⟩)
  else if same_week st.prev t.start = false then
    ([.weeklyCal st.prev st.w],
     ⟨t.start, add_duration_week cur t ([], []), add_duration cur t st.m⟩)
  else
    ([], ⟨t.start, add_duration_week cur t st.w, add_duration cur t st.m⟩)

/-- Folding `calStep` over the sequence, collecting emitted events and the
final state. -/
def calLoop (cur : DT) (st : CalSt) : List Timer → List CEv × CalSt
  | [] => ([], st)
  | t :: rest =>
    let p := calStep cur st t
    let q := calLoop cur p.2 rest
    (p.1 ++ q.1, q.2)

/-- The main scan of `report_cal()`, started from the first timer's start
date and empty tallies. -/
def calScan (cur : DT) (ts : List Timer) : List CEv × CalSt :=
  calLoop cur ⟨(ts.head?.map Timer.start).getD ⟨1, 1, 1, 0, 0, 0⟩, ([], []), ([], [])⟩ ts

/-- `report_cal()` from the source, as the list of output events. -/
def report_cal (cur : DT) (ts : List Timer) : List CEv :=
  match ts with
  | [] => [.msg "No timers to report"]
  | _ :: _ =>
    .sep :: ((calScan cur ts).1 ++
      [.weeklyCal (calScan cur ts).2.prev (calScan cur ts).2.w,
       .monthly (calScan cur ts).2.prev (calScan cur ts).2.m])

/-- One reported break in service: first and last ordinal day of the gap
and the day count, the data printed by `report_break_in_service`. -/
structure BEv where
  startBreak : Int
  endBreak : Int
  days : Int
deriving DecidableEq

/-- The loop of `report_break_in_service()`. -/
def breakLoop (prev : DT) : List Timer → List BEv
  | [] => []
  | t :: rest =>
    let sb : Int := (toordinal prev : Int) + 1
    let eb : Int := (toordinal t.start : Int) - 1
    (if 3 < eb - sb + 1 then [⟨sb, eb, eb - sb + 1⟩] else []) ++ breakLoop t.start rest

/-- `report_break_in_service()` from the source; `none` models the
uncaught `IndexError` raised by `timers[0]` on an empty sequence. -/
def report_break_in_service (ts : List Timer) : Option (List BEv) :=
  match ts with
  | [] => none
  | t0 :: _ => some (breakLoop t0.start ts)

/-- The store format version, the global `version = 2`. -/
def version : Nat := 2

/-- Fuel-bounded digit extraction behind `natChars`; any fuel above the
number works, the fuel-out branch is never taken. -/
def natCharsAux : Nat → Nat → List Char
  | 0, _ => []
  | fuel + 1, n =>
    if n < 10 then [Char.ofNat (48 + n)]
    else natCharsAux fuel (n / 10) ++ [Char.ofNat (48 + n % 10)]

/-- Decimal digits of a natural number, most significant first. -/
def natChars (n : Nat) : List Char :=
  natCharsAux (n + 1) n

/-- Zero-padded decimal rendering of width `w`, as in the `strftime`
fields `%Y`, `%m`, `%d`, `%H`, `%M`, `%S`. -/
def pad (w n : Nat) : List Char :=
  List.replicate (w - (natChars n).length) '0' ++ natChars n

/-- `date_to_str(date)` from the source: `None` or
`%Y-%m-%d %H:%M:%S`. -/
def date_to_str : Option DT → List Char
  | none => "None".data
  | some dt =>
    [' '].intercalate
      [['-'].intercalate [pad 4 dt.y, pad 2 dt.mo, pad 2 dt.d],
       [':'].intercalate [pad 2 dt.h, pad 2 dt.mi, pad 2 dt.s]]

/-- Numeric value of a decimal digit character. -/
def digitVal (c : Char) : Nat := c.toNat - 48

/-- Value of a string of decimal digits. -/
def parseNatChars (cs : List Char) : Nat :=
  cs.foldl (fun a c => a * 10 + digitVal c) 0

/-- A decimal digit character. -/
def isDigitChar (c : Char) : Bool :=
  48 ≤ c.toNat && c.toNat ≤ 57

/-- A nonempty all-digit character list. -/
def isDigits (cs : List Char) : Bool :=
  !cs.isEmpty && cs.all isDigitChar

/-- `date_from_str(str)` from the source: `None` for the string `None`,
otherwise `strptime` with format `%Y-%m-%d %H:%M:%S`; the outer `none`
models the `ValueError` raised on a string not matching the format. -/
def date_from_str (cs : List Char) : Option (Option DT) :=
  if cs = "None".data then some none
  else
    match cs.splitOn ' ' with
    | [dp, tp] =>
      match dp.splitOn '-', tp.splitOn ':' with
      | [ys, ms, ds], [hs, mis, ss] =>
        if isDigits ys ∧ isDigits ms ∧ isDigits ds ∧
           isDigits hs ∧ isDigits mis ∧ isDigits ss then
          let mo := parseNatChars ms
          let d := parseNatChars ds
          let h := parseNatChars hs
          let mi := parseNatChars mis
          let s := parseNatChars ss
          if 1 ≤ mo ∧ mo ≤ 12 ∧ 1 ≤ d ∧ d ≤ 31 ∧ h ≤ 23 ∧ mi ≤ 59 ∧ s ≤ 61 then
            some (some ⟨parseNatChars ys, mo, d, h, mi, s⟩)
          else none
        else none
      | _, _ => none
    | _ => none

/-- The `TIMER` line written by `save` for one timer:
tab-separated `TIMER`, start, stop, name, comment. -/
def timerLine (t : Timer) : List Char :=
  ['\t'].intercalate
    ["TIMER".data, date_to_str (some t.start), date_to_str t.end_,
     t.name.data, t.comment.data]

/-- `save(fname)` from the source: the character content written to the
store, a `VERSION` line followed by one `TIMER` line per timer, each line
terminated by a newline. -/
def save (ts : List Timer) : List Char :=
  ['\n'].intercalate (("VERSION".data ++ '\t' :: natChars version) :: ts.map timerLine ++ [[]])

/-- Python's `line.rstrip('\r\n')`. -/
def rstripCRLF (cs : List Char) : List Char :=
  (cs.reverse.dropWhile (fun c => c == '\r' || c == '\n')).reverse

/-- Parsing of the fields after `TIMER` under the running `load_version`:
the current 5-field layout when `load_version > 1`, the two older layouts
otherwise; `none` models an out-of-range field index or a `strptime`
failure. -/
def parseTimerRecord (lv : Nat) (rest : List (List Char)) : Option Timer :=
  if 1 < lv then
    match rest with
    | f1 :: f2 :: f3 :: f4 :: _ =>
      match date_from_str f1, date_from_str f2 with
      | some (some start), some stop => some (mkTimer (String.mk f3) (String.mk f4) start stop)
      | _, _ => none
    | _ => none
  else if lv = 1 then
    match rest with
    | f1 :: f2 :: f3 :: _ =>
      match date_from_str f1, date_from_str f2 with
      | some (some start), some stop => some (mkTimer (String.mk f3) "" start stop)
      | _, _ => none
    | _ => none
  else
    match rest with
    | f1 :: f2 :: f3 :: _ =>
      match date_from_str f2, date_from_str f3 with
      | some (some start), some stop => some (mkTimer (String.mk f1) "" start stop)
      | _, _ => none
    | _ => none

/-- Processing of one line of the store by the `load` loop.  The state is
the accumulated timer list and the running `load_version`; `none` models
an uncaught exception: an out-of-range field index or an unparsable
date or version number. -/
def processLine (st : List Timer × Nat) (line : List Char) : Option (List Timer × Nat) :=
  match (rstripCRLF line).splitOn '\t' with
  | [] => some st
  | f0 :: rest =>
    if f0 = "TAGCHAR".data then
      -- tag_char = field[1]; the assignment targets a local variable and
      -- has no effect beyond requiring the field to exist.
      match rest with
      | _ :: _ => some st
      | [] => none
    else if f0 = "TIMER".data then
      (parseTimerRecord st.2 rest).map (fun t => (st.1 ++ [t], st.2))
    else if f0 = "VERSION".data then
      match rest with
      | f1 :: _ => if isDigits f1 then some (st.1, parseNatChars f1) else none
      | [] => none
    else some st

/-- `load(fname)` from the source: parse the store content line by line
and return the timer list together with the `save_changes` flag, which
`load` raises exactly when the final `load_version` differs from
`version`. -/
def load (file : List Char) : Option (List Timer × Bool) :=
  ((file.splitOn '\n').foldlM processLine ([], 0)).map
    (fun st => (st.1, decide (st.2 ≠ version)))

/-! ## Claim-side definitions

The definitions below are written from the wording of the claims (and the
spec sentences they cite), to be compared with the source embedding
above. -/

/-- A closed end that the given instant precedes. -/
def endLT (now : DT) (o : Option DT) : Prop :=
  ∃ e, o = some e ∧ toSec now < toSec e

instance (now : DT) : (o : Option DT) → Decidable (endLT now o)
  | none => .isFalse (by rintro ⟨e, he, _⟩; cases he)
  | some e =>
    decidable_of_iff (toSec now < toSec e)
      ⟨fun h => ⟨e, rfl, h⟩, fun h => by rcases h with ⟨e', he', h⟩; cases he'; exact h⟩

/-- From C1: a timer the backward scan of `stop()` must repair, i.e. one
hit by one of the three mutating branches. -/
def affected (now : DT) (t : Timer) : Prop :=
  toSec now < toSec t.start ∨ t.end_ = none ∨ endLT now t.end_

/-- From C1: the repair applied to a single timer — exactly one of:
collapse to a zero-length interval when `now` precedes the start, close an
active timer, clamp a closed end that `now` precedes; otherwise leave it
unchanged. -/
def repairOne (now : DT) (t : Timer) : Timer :=
  if toSec now < toSec t.start then ⟨t.name, t.comment, now, some now⟩
  else if t.end_ = none then { t with end_ := some now }
  else if toSec now < toSec (t.end_.getD now) then { t with end_ := some now }
  else t

/-- From C2: every timer except possibly the last is closed — hence at
most one timer is active, and only the last can be. -/
def Inv (ts : List Timer) : Prop :=
  ∀ t ∈ ts.dropLast, t.end_ ≠ none

/-- Every timer of the sequence is closed. -/
def AllClosed (ts : List Timer) : Prop :=
  ∀ t ∈ ts, t.end_ ≠ none

instance (ts : List Timer) : Decidable (Inv ts) :=
  decidable_of_iff (∀ t ∈ ts.dropLast, t.end_ ≠ none) Iff.rfl

instance (ts : List Timer) : Decidable (AllClosed ts) :=
  decidable_of_iff (∀ t ∈ ts, t.end_ ≠ none) Iff.rfl

/-- From C3: a closed timer has `end ≥ start`. -/
def ClosedNonneg (t : Timer) : Prop :=
  ∀ e, t.end_ = some e → toSec t.start ≤ toSec e

/-- An optional end not earlier than the given instant. -/
def endGE (s : DT) : Option DT → Prop :=
  fun o => ∀ e, o = some e → toSec s ≤ toSec e

instance (s : DT) : (o : Option DT) → Decidable (endGE s o)
  | none => .isTrue (by intro e he; cases he)
  | some e =>
    decidable_of_iff (toSec s ≤ toSec e)
      ⟨fun h e' he' => by cases he'; exact h, fun h => h e rfl⟩

instance (t : Timer) : Decidable (ClosedNonneg t) :=
  decidable_of_iff (endGE t.start t.end_) Iff.rfl

/-- A timer the store format can carry faithfully: name and comment are
stripped and free of tab, newline and carriage return, and the dates have
calendar-valid fields. -/
def validDT (dt : DT) : Prop :=
  1 ≤ dt.mo ∧ dt.mo ≤ 12 ∧ 1 ≤ dt.d ∧ dt.d ≤ 31 ∧ dt.h ≤ 23 ∧ dt.mi ≤ 59 ∧ dt.s ≤ 59

/-- Characters that survive a tab-separated, newline-terminated record. -/
def cleanChars (cs : List Char) : Prop :=
  ∀ c ∈ cs, c ≠ '\t' ∧ c ≠ '\n' ∧ c ≠ '\r'

/-- A valid optional end date. -/
def endValid : Option DT → Prop :=
  fun o => ∀ e, o = some e → validDT e

instance (dt : DT) : Decidable (validDT dt) :=
  decidable_of_iff
    (1 ≤ dt.mo ∧ dt.mo ≤ 12 ∧ 1 ≤ dt.d ∧ dt.d ≤ 31 ∧ dt.h ≤ 23 ∧ dt.mi ≤ 59 ∧ dt.s ≤ 59)
    Iff.rfl

instance : (o : Option DT) → Decidable (endValid o)
  | none => .isTrue (by intro e he; cases he)
  | some e =>
    decidable_of_iff (validDT e)
      ⟨fun h e' he' => by cases he'; exact h, fun h => h e rfl⟩

instance (cs : List Char) : Decidable (cleanChars cs) :=
  decidable_of_iff (∀ c ∈ cs, c ≠ '\t' ∧ c ≠ '\n' ∧ c ≠ '\r') Iff.rfl

/-- A timer whose fields the store format can carry faithfully. -/
def CleanTimer (t : Timer) : Prop :=
  pyStripChars t.name.data = t.name.data ∧ pyStripChars t.comment.data = t.comment.data ∧
  cleanChars t.name.data ∧ cleanChars t.comment.data ∧
  validDT t.start ∧ endValid t.end_

instance (t : Timer) : Decidable (CleanTimer t) :=
  decidable_of_iff
    (pyStripChars t.name.data = t.name.data ∧ pyStripChars t.comment.data = t.comment.data ∧
     cleanChars t.name.data ∧ cleanChars t.comment.data ∧
     validDT t.start ∧ endValid t.end_)
    Iff.rfl

/-- Every timer of the sequence is storable. -/
def CleanTimers (ts : List Timer) : Prop :=
  ∀ t ∈ ts, CleanTimer t

instance (ts : List Timer) : Decidable (CleanTimers ts) :=
  decidable_of_iff (∀ t ∈ ts, CleanTimer t) Iff.rfl

/-- From C8: the report of the days strictly between the start dates of
each pair of consecutive timers, exactly when more than 3. -/
def breakSpec (ts : List Timer) : List BEv :=
  (ts.zip ts.tail).filterMap (fun p =>
    let g : Int := (toordinal p.2.start : Int) - (toordinal p.1.start : Int) - 1
    if 3 < g then some ⟨(toordinal p.1.start : Int) + 1, (toordinal p.2.start : Int) - 1, g⟩
    else none)

/-- The daily section flushes of a report event list. -/
def dailyOf (evs : List REv) : List (DT × Tally) :=
  evs.filterMap (fun e => match e with | .daily d t => some (d, t) | _ => none)

/-- The weekly section flushes of a report event list. -/
def weeklyOf (evs : List REv) : List (DT × Tally) :=
  evs.filterMap (fun e => match e with | .weekly d t => some (d, t) | _ => none)

/-- The monthly section flushes of a report event list. -/
def monthlyOf (evs : List REv) : List (DT × Tally) :=
  evs.filterMap (fun e => match e with | .monthly d t => some (d, t) | _ => none)

/-- Sum of the values of a tally column — the `TOTAL` row of
`print_durations` for the name column, the implicit tag total for the tag
column. -/
def sumVals (m : List (String × Int)) : Int :=
  (m.map Prod.snd).sum

/-- The tally obtained by accumulating a list of timers into an empty
tally. -/
def TallyOf (cur : DT) (run : List Timer) : Tally :=
  run.foldl (fun tot t => add_duration cur t tot) ([], [])

/-- One granularity of the `report()` loop in isolation: flush on a
boundary of `eqd`, then accumulate; used to relate `report` to its
buckets. -/
def gLoop (cur : DT) (eqd : DT → DT → Bool) (prev : DT) (tot : Tally) :
    List Timer → List (DT × Tally)
  | [] => [(prev, tot)]
  | t :: rest =>
    if eqd prev t.start then gLoop cur eqd t.start (add_duration cur t tot) rest
    else (prev, tot) :: gLoop cur eqd t.start (add_duration cur t ([], [])) rest

/-- The version number a single store line records, if it is a `VERSION`
record. -/
def versionOf (line : List Char) : Option Nat :=
  match (rstripCRLF line).splitOn '\t' with
  | f0 :: f1 :: _ =>
    if f0 = "VERSION".data ∧ isDigits f1 then some (parseNatChars f1) else none
  | _ => none

/-- From C10: the `VERSION` recorded in a store file — the value of the
last `VERSION` record, `none` when there is no such record. -/
def recordedVersion (file : List Char) : Option Nat :=
  (file.splitOn '\n').foldl
    (fun acc line => match versionOf line with | some v => some v | none => acc)
    none

/-! ## Lemmas and claim theorems -/

/-- The backward scan of `stop_timer` repairs a maximal prefix of the
reversed sequence consisting of affected timers and stops at the first
unaffected one, leaving it and everything beyond untouched. -/
theorem repairRev_spec (now : DT) (l : List Timer) :
    ∃ k, k ≤ l.length ∧
      repairRev now l = (l.take k).map (repairOne now) ++ l.drop k ∧
      (∀ t ∈ l.take k, affected now t) ∧
      (∀ t, (l.drop k).head? = some t → ¬ affected now t) := by
  induction l with
  | nil =>
    refine ⟨0, Nat.le_refl 0, by simp [repairRev], by simp, ?_⟩
    intro t h
    simp at h
  | cons t rest ih =>
    by_cases ha : affected now t
    · obtain ⟨k, hk, hr, hall, hhead⟩ := ih
      have hstep : repairRev now (t :: rest) = repairOne now t :: repairRev now rest := by
        by_cases h1 : toSec now < toSec t.start
        · simp [repairRev, repairOne, h1]
        · rcases he : t.end_ with _ | e
          · simp [repairRev, repairOne, h1, Timer.active, he]
          · have h3 : toSec now < toSec e := by
              rcases ha with h | h | ⟨e', he', hlt⟩
              · exact absurd h h1
              · rw [he] at h; cases h
              · rw [he] at he'
                cases he'
                exact hlt
            simp [repairRev, repairOne, h1, Timer.active, he, h3]
      refine ⟨k + 1, Nat.succ_le_succ hk, ?_, ?_, ?_⟩
      · simpa [hstep, List.take_succ_cons, List.drop_succ_cons] using hr
      · intro u hu
        rcases List.mem_cons.mp (by simpa [List.take_succ_cons] using hu) with h | h
        · exact h ▸ ha
        · exact hall u h
      · intro u hu
        exact hhead u (by simpa [List.drop_succ_cons] using hu)
    · have h1 : ¬ toSec now < toSec t.start := fun h => ha (Or.inl h)
      have h2 : t.end_ ≠ none := fun h => ha (Or.inr (Or.inl h))
      have hstep : repairRev now (t :: rest) = t :: rest := by
        rcases he : t.end_ with _ | e
        · exact absurd he h2
        · have h3 : ¬ toSec now < toSec e := fun h => ha (Or.inr (Or.inr ⟨e, he, h⟩))
          simp [repairRev, h1, Timer.active, he, h3]
      refine ⟨0, Nat.zero_le _, by simp [hstep], by simp, ?_⟩
      intro u hu
      simp only [List.drop_zero, List.head?_cons, Option.some.injEq] at hu
      exact hu ▸ ha

/-- C1: `stop()` walks the timer sequence from the last element backward
and, for each timer, applies exactly one of the three repairs of
`repairOne` (collapse when `now < start`, close when active, clamp when
`now < end`), until it reaches the first timer needing no repair; that
timer and all earlier ones are left unchanged. -/
theorem c1_stop_timer_backward_scan (now : DT) (ts : List Timer) :
    ∃ k, k ≤ ts.length ∧
      (stop_timer now ts).reverse = (ts.reverse.take k).map (repairOne now) ++ ts.reverse.drop k ∧
      (∀ t ∈ ts.reverse.take k, affected now t) ∧
      (∀ t, (ts.reverse.drop k).head? = some t → ¬ affected now t) := by
  obtain ⟨k, hk, hr, hall, hhead⟩ := repairRev_spec now ts.reverse
  exact ⟨k, by simpa using hk, by simp [stop_timer, hr], hall, hhead⟩

/-- A single repair never produces a closed timer with `end < start`. -/
theorem repairOne_closedNonneg (now : DT) (t : Timer) (h : ClosedNonneg t) :
    ClosedNonneg (repairOne now t) := by
  unfold repairOne
  by_cases h1 : toSec now < toSec t.start
  · rw [if_pos h1]
    intro e he
    simp only [Option.some.injEq] at he
    subst he
    exact Nat.le_refl _
  · rw [if_neg h1]
    by_cases h2 : t.end_ = none
    · rw [if_pos h2]
      intro e he
      simp only [Option.some.injEq] at he
      subst he
      exact Nat.le_of_not_lt h1
    · rw [if_neg h2]
      by_cases h3 : toSec now < toSec (t.end_.getD now)
      · rw [if_pos h3]
        intro e he
        simp only [Option.some.injEq] at he
        subst he
        exact Nat.le_of_not_lt h1
      · rw [if_neg h3]
        exact h

/-- `stop_timer` preserves `end ≥ start` on every closed timer. -/
theorem stop_timer_closedNonneg (now : DT) (ts : List Timer)
    (h : ∀ t ∈ ts, ClosedNonneg t) : ∀ t ∈ stop_timer now ts, ClosedNonneg t := by
  obtain ⟨k, _, hr, _, _⟩ := repairRev_spec now ts.reverse
  intro u hu
  have hu' : u ∈ repairRev now ts.reverse := by
    rw [stop_timer, List.mem_reverse] at hu
    exact hu
  rw [hr] at hu'
  rcases List.mem_append.mp hu' with h' | h'
  · obtain ⟨v, hv, rfl⟩ := List.mem_map.mp h'
    exact repairOne_closedNonneg now v (h v (List.mem_reverse.mp (List.mem_of_mem_take hv)))
  · exact h u (List.mem_reverse.mp (List.mem_of_mem_drop h'))

/-- `duration()` is nonnegative on a closed timer with `end ≥ start`, and
on an active timer whose start does not lie after the sampling time. -/
theorem duration_nonneg (cur : DT) (t : Timer) (h : ClosedNonneg t)
    (hact : t.end_ = none → toSec t.start ≤ toSec cur) : 0 ≤ t.duration cur := by
  unfold Timer.duration
  rcases he : t.end_ with _ | e
  · have := hact he
    simp only [he, Option.getD_none]
    omega
  · have := h e he
    simp only [he, Option.getD_some]
    omega

/-- C3 (counterexample to the claim as stated): the `at` option can move
`now` forward, so `start_timer` can create an active timer whose start
lies in the future; sampling its `duration()` before that start (here at
12:30 for a timer started "at 14:00") yields a negative value. -/
theorem c3_counterexample :
    start_timer "work" "" ⟨2024, 1, 1, 14, 0, 0⟩ [] =
      [mkTimer "work" "" ⟨2024, 1, 1, 14, 0, 0⟩ none] ∧
    (mkTimer "work" "" ⟨2024, 1, 1, 14, 0, 0⟩ none).duration ⟨2024, 1, 1, 12, 30, 0⟩ < 0 := by
  exact ⟨rfl, by decide⟩

/-- C3 (amended): once `stop()` has run, every closed timer satisfies
`end ≥ start` (provided the closed timers already stored satisfied it,
which every timer ever closed by `stop()` does), and `duration()` is
nonnegative for every such closed timer and for every active timer whose
start does not lie after the sampling instant — an active timer started in
the future via the `at` option is the remaining exception. -/
theorem c3_closed_nonneg_and_duration (now cur : DT) (ts : List Timer)
    (h : ∀ t ∈ ts, ClosedNonneg t) :
    (∀ t ∈ stop_timer now ts, ClosedNonneg t) ∧
    (∀ t, ClosedNonneg t → (t.end_ = none → toSec t.start ≤ toSec cur) →
      0 ≤ t.duration cur) :=
  ⟨stop_timer_closedNonneg now ts h, fun t ht hact => duration_nonneg cur t ht hact⟩

/-- Witness for C3 (amended) at a concrete input. -/
theorem c3_witness :
    (∀ t ∈ [mkTimer "a" "" ⟨2024, 1, 1, 9, 0, 0⟩ (some ⟨2024, 1, 1, 10, 0, 0⟩),
            mkTimer "b" "" ⟨2024, 1, 1, 11, 0, 0⟩ none], ClosedNonneg t) ∧
    ((∀ t ∈ stop_timer ⟨2024, 1, 1, 12, 0, 0⟩
          [mkTimer "a" "" ⟨2024, 1, 1, 9, 0, 0⟩ (some ⟨2024, 1, 1, 10, 0, 0⟩),
           mkTimer "b" "" ⟨2024, 1, 1, 11, 0, 0⟩ none], ClosedNonneg t) ∧
     (∀ t, ClosedNonneg t →
        (t.end_ = none → toSec t.start ≤ toSec ⟨2024, 1, 1, 12, 0, 0⟩) →
        0 ≤ t.duration ⟨2024, 1, 1, 12, 0, 0⟩)) :=
  ⟨by decide,
   c3_closed_nonneg_and_duration ⟨2024, 1, 1, 12, 0, 0⟩ ⟨2024, 1, 1, 12, 0, 0⟩
     [mkTimer "a" "" ⟨2024, 1, 1, 9, 0, 0⟩ (some ⟨2024, 1, 1, 10, 0, 0⟩),
      mkTimer "b" "" ⟨2024, 1, 1, 11, 0, 0⟩ none] (by decide)⟩

/-! ### Decimal rendering and parsing -/

/-- The character of a single decimal digit has the expected code. -/
theorem digitChar_toNat (m : Nat) (h : m < 10) : (Char.ofNat (48 + m)).toNat = 48 + m := by
  interval_cases m <;> decide

/-- Digits produced by the fuel-bounded extractor are decimal digit
characters. -/
theorem natCharsAux_digits (fuel : Nat) :
    ∀ n, ∀ c ∈ natCharsAux fuel n, 48 ≤ c.toNat ∧ c.toNat ≤ 57 := by
  induction fuel with
  | zero =>
    intro n c hc
    simp [natCharsAux] at hc
  | succ fuel ih =>
    intro n c hc
    rw [natCharsAux] at hc
    by_cases h : n < 10
    · rw [if_pos h] at hc
      rcases List.mem_singleton.mp hc with rfl
      rw [digitChar_toNat _ h]
      omega
    · rw [if_neg h] at hc
      rcases List.mem_append.mp hc with h2 | h2
      · exact ih (n / 10) c h2
      · rcases List.mem_singleton.mp h2 with rfl
        rw [digitChar_toNat _ (Nat.mod_lt _ (by omega))]
        have := Nat.mod_lt n (y := 10) (by omega)
        omega

/-- Digits of a number are decimal digit characters. -/
theorem natChars_digits (n : Nat) : ∀ c ∈ natChars n, 48 ≤ c.toNat ∧ c.toNat ≤ 57 :=
  natCharsAux_digits (n + 1) n

/-- `natChars` never yields the empty list. -/
theorem natChars_ne_nil (n : Nat) : natChars n ≠ [] := by
  unfold natChars natCharsAux
  by_cases h : n < 10
  · rw [if_pos h]; simp
  · rw [if_neg h]; simp

/-- Folding the decimal digits of `n` onto accumulator `a`. -/
theorem foldl_natCharsAux (fuel : Nat) :
    ∀ n, n < fuel → ∀ a, (natCharsAux fuel n).foldl (fun a c => a * 10 + digitVal c) a =
      a * 10 ^ (natCharsAux fuel n).length + n := by
  induction fuel with
  | zero =>
    intro n h
    omega
  | succ fuel ih =>
    intro n h a
    rw [natCharsAux]
    by_cases h10 : n < 10
    · rw [if_pos h10]
      simp only [List.foldl_cons, List.foldl_nil, List.length_singleton, pow_one]
      unfold digitVal
      rw [digitChar_toNat _ h10]
      omega
    · rw [if_neg h10]
      have hlt : n / 10 < fuel := by
        have : n / 10 < n := Nat.div_lt_self (by omega) (by omega)
        omega
      rw [List.foldl_append, ih (n / 10) hlt a]
      simp only [List.foldl_cons, List.foldl_nil, List.length_append,
        List.length_singleton]
      unfold digitVal
      rw [digitChar_toNat _ (Nat.mod_lt _ (by omega))]
      have hm : 48 + n % 10 - 48 = n % 10 := by omega
      rw [hm, pow_succ]
      have := Nat.div_add_mod n 10
      ring_nf
      omega

/-- Parsing inverts rendering. -/
theorem parseNatChars_natChars (n : Nat) : parseNatChars (natChars n) = n := by
  unfold parseNatChars natChars
  rw [foldl_natCharsAux (n + 1) n (by omega) 0]
  ring

/-- Leading zeros do not change the parsed value. -/
theorem parseNatChars_replicate_zero (k : Nat) (cs : List Char) :
    parseNatChars (List.replicate k '0' ++ cs) = parseNatChars cs := by
  unfold parseNatChars
  rw [List.foldl_append]
  congr 1
  induction k with
  | zero => rfl
  | succ k ihk => rw [List.replicate_succ, List.foldl_cons]; simpa [digitVal]

/-- Parsing inverts zero-padded rendering. -/
theorem parseNatChars_pad (w n : Nat) : parseNatChars (pad w n) = n := by
  rw [pad, parseNatChars_replicate_zero, parseNatChars_natChars]

/-- Characters of a zero-padded number are decimal digit characters. -/
theorem pad_digits (w n : Nat) : ∀ c ∈ pad w n, 48 ≤ c.toNat ∧ c.toNat ≤ 57 := by
  intro c hc
  rcases List.mem_append.mp hc with h | h
  · rcases List.eq_of_mem_replicate h with rfl
    decide
  · exact natChars_digits n c h

/-- A zero-padded number is a nonempty digit string. -/
theorem isDigits_pad (w n : Nat) : isDigits (pad w n) = true := by
  unfold isDigits
  have hne : pad w n ≠ [] := by
    unfold pad
    intro h
    rcases List.append_eq_nil.mp h with ⟨-, h2⟩
    exact natChars_ne_nil n h2
  rw [Bool.and_eq_true, List.all_eq_true]
  constructor
  · simpa using hne
  · intro c hc
    have := pad_digits w n c hc
    simp only [isDigitChar, Bool.and_eq_true, decide_eq_true_eq]
    omega

/-- Width lower bound for zero-padded rendering. -/
theorem pad_length (w n : Nat) : w ≤ (pad w n).length := by
  unfold pad
  rw [List.length_append, List.length_replicate]
  omega

/-! ### Date string round trip -/

/-- Two-element intercalation. -/
theorem intercalate_pair (c : Char) (a b : List Char) :
    [c].intercalate [a, b] = a ++ c :: b := by
  simp [List.intercalate, List.intersperse]

/-- Three-element intercalation. -/
theorem intercalate_triple (c : Char) (a b d : List Char) :
    [c].intercalate [a, b, d] = a ++ c :: (b ++ c :: d) := by
  simp [List.intercalate, List.intersperse]

/-- Characters of the date part of a rendered date. -/
theorem dpart_chars (y mo d : Nat) :
    ∀ c ∈ ['-'].intercalate [pad 4 y, pad 2 mo, pad 2 d],
      c = '-' ∨ (48 ≤ c.toNat ∧ c.toNat ≤ 57) := by
  intro c hc
  rw [intercalate_triple] at hc
  rcases List.mem_append.mp hc with h | h
  · exact Or.inr (pad_digits _ _ c h)
  · rcases List.mem_cons.mp h with rfl | h
    · exact Or.inl rfl
    · rcases List.mem_append.mp h with h | h
      · exact Or.inr (pad_digits _ _ c h)
      · rcases List.mem_cons.mp h with rfl | h
        · exact Or.inl rfl
        · exact Or.inr (pad_digits _ _ c h)

/-- Characters of the time part of a rendered date. -/
theorem tpart_chars (h mi s : Nat) :
    ∀ c ∈ [':'].intercalate [pad 2 h, pad 2 mi, pad 2 s],
      c = ':' ∨ (48 ≤ c.toNat ∧ c.toNat ≤ 57) := by
  intro c hc
  rw [intercalate_triple] at hc
  rcases List.mem_append.mp hc with hh | hh
  · exact Or.inr (pad_digits _ _ c hh)
  · rcases List.mem_cons.mp hh with rfl | hh
    · exact Or.inl rfl
    · rcases List.mem_append.mp hh with hh | hh
      · exact Or.inr (pad_digits _ _ c hh)
      · rcases List.mem_cons.mp hh with rfl | hh
        · exact Or.inl rfl
        · exact Or.inr (pad_digits _ _ c hh)

/-- Character class of a rendered optional date. -/
theorem date_to_str_chars (o : Option DT) :
    ∀ c ∈ date_to_str o,
      c = ' ' ∨ c = '-' ∨ c = ':' ∨ (48 ≤ c.toNat ∧ c.toNat ≤ 57) ∨ c ∈ "None".data := by
  intro c hc
  rcases o with _ | dt
  · exact Or.inr (Or.inr (Or.inr (Or.inr hc)))
  · rw [date_to_str, intercalate_pair] at hc
    rcases List.mem_append.mp hc with h | h
    · rcases dpart_chars dt.y dt.mo dt.d c h with h | h
      · exact Or.inr (Or.inl h)
      · exact Or.inr (Or.inr (Or.inr (Or.inl h)))
    · rcases List.mem_cons.mp h with rfl | h
      · exact Or.inl rfl
      · rcases tpart_chars dt.h dt.mi dt.s c h with h | h
        · exact Or.inr (Or.inr (Or.inl h))
        · exact Or.inr (Or.inr (Or.inr (Or.inl h)))

/-- A rendered date contains no tab, newline or carriage return. -/
theorem date_to_str_clean (o : Option DT) :
    ∀ c ∈ date_to_str o, c ≠ '\t' ∧ c ≠ '\n' ∧ c ≠ '\r' := by
  intro c hc
  rcases date_to_str_chars o c hc with rfl | rfl | rfl | ⟨h1, h2⟩ | hN
  · exact ⟨by decide, by decide, by decide⟩
  · exact ⟨by decide, by decide, by decide⟩
  · exact ⟨by decide, by decide, by decide⟩
  · refine ⟨?_, ?_, ?_⟩ <;> rintro rfl <;> exact absurd h1 (by decide)
  · fin_cases hN <;> exact ⟨by decide, by decide, by decide⟩

/-- Parsing inverts rendering on `None`. -/
theorem date_from_to_none : date_from_str (date_to_str none) = some none := by
  decide

/-- Parsing inverts rendering on a calendar-valid date. -/
theorem date_from_to_some (dt : DT) (h : validDT dt) :
    date_from_str (date_to_str (some dt)) = some (some dt) := by
  obtain ⟨h1, h2, h3, h4, h5, h6, h7⟩ := h
  have hne : date_to_str (some dt) ≠ "None".data := by
    intro heq
    have hl := congrArg List.length heq
    rw [date_to_str, intercalate_pair, intercalate_triple, intercalate_triple] at hl
    simp only [List.length_append, List.length_cons] at hl
    have p1 := pad_length 4 dt.y
    have p2 := pad_length 2 dt.mo
    have p3 := pad_length 2 dt.d
    have p4 := pad_length 2 dt.h
    have p5 := pad_length 2 dt.mi
    have p6 := pad_length 2 dt.s
    simp only [List.length_cons, List.length_nil, String.data] at hl
    omega
  have hsp : (date_to_str (some dt)).splitOn ' ' =
      [['-'].intercalate [pad 4 dt.y, pad 2 dt.mo, pad 2 dt.d],
       [':'].intercalate [pad 2 dt.h, pad 2 dt.mi, pad 2 dt.s]] := by
    rw [date_to_str]
    refine List.splitOn_intercalate _ ' ' ?_ (by simp)
    intro l hl
    rcases List.mem_cons.mp hl with rfl | hl
    · intro hmem
      rcases dpart_chars dt.y dt.mo dt.d ' ' hmem with h | h
      · exact absurd h (by decide)
      · exact absurd h.1 (by decide)
    · rcases List.mem_cons.mp hl with rfl | hl
      · intro hmem
        rcases tpart_chars dt.h dt.mi dt.s ' ' hmem with h | h
        · exact absurd h (by decide)
        · exact absurd h.1 (by decide)
      · simp at hl
  have hd : (['-'].intercalate [pad 4 dt.y, pad 2 dt.mo, pad 2 dt.d]).splitOn '-' =
      [pad 4 dt.y, pad 2 dt.mo, pad 2 dt.d] := by
    refine List.splitOn_intercalate _ '-' ?_ (by simp)
    intro l hl hmem
    have : (45 : Nat) < 48 := by omega
    rcases List.mem_cons.mp hl with rfl | hl
    · exact absurd (pad_digits 4 dt.y '-' hmem).1 (by decide)
    · rcases List.mem_cons.mp hl with rfl | hl
      · exact absurd (pad_digits 2 dt.mo '-' hmem).1 (by decide)
      · rcases List.mem_cons.mp hl with rfl | hl
        · exact absurd (pad_digits 2 dt.d '-' hmem).1 (by decide)
        · simp at hl
  have ht : ([':'].intercalate [pad 2 dt.h, pad 2 dt.mi, pad 2 dt.s]).splitOn ':' =
      [pad 2 dt.h, pad 2 dt.mi, pad 2 dt.s] := by
    refine List.splitOn_intercalate _ ':' ?_ (by simp)
    intro l hl hmem
    rcases List.mem_cons.mp hl with rfl | hl
    · exact absurd (pad_digits 2 dt.h ':' hmem).2 (by decide)
    · rcases List.mem_cons.mp hl with rfl | hl
      · exact absurd (pad_digits 2 dt.mi ':' hmem).2 (by decide)
      · rcases List.mem_cons.mp hl with rfl | hl
        · exact absurd (pad_digits 2 dt.s ':' hmem).2 (by decide)
        · simp at hl
  unfold date_from_str
  rw [if_neg hne, hsp]
  simp only [hd, ht]
  rw [if_pos ⟨isDigits_pad 4 dt.y, isDigits_pad 2 dt.mo, isDigits_pad 2 dt.d,
      isDigits_pad 2 dt.h, isDigits_pad 2 dt.mi, isDigits_pad 2 dt.s⟩]
  simp only [parseNatChars_pad]
  rw [if_pos ⟨h1, h2, h3, h4, h5, h6, by omega⟩]

/-- Parsing inverts rendering on a storable optional date. -/
theorem date_from_to (o : Option DT) (h : endValid o) :
    date_from_str (date_to_str o) = some o := by
  rcases o with _ | dt
  · exact date_from_to_none
  · exact date_from_to_some dt (h dt rfl)

/-! ### Store lines -/

/-- Membership in a single-character intercalation. -/
theorem mem_intercalate_sep (c : Char) (ls : List (List Char)) :
    ∀ x ∈ [c].intercalate ls, x = c ∨ ∃ l ∈ ls, x ∈ l := by
  induction ls with
  | nil => simp [List.intercalate]
  | cons a tl ih =>
    cases tl with
    | nil =>
      intro x hx
      rw [List.intercalate, List.intersperse_singleton, List.flatten_cons,
        List.flatten_nil, List.append_nil] at hx
      exact Or.inr ⟨a, List.mem_cons_self a [], hx⟩
    | cons b tl2 =>
      intro x hx
      rw [List.intercalate, List.intersperse_cons_cons, List.flatten_cons,
        List.flatten_cons, ← List.intercalate] at hx
      rcases List.mem_append.mp hx with h | h
      · exact Or.inr ⟨a, List.mem_cons_self a _, h⟩
      · rcases List.mem_append.mp h with h | h
        · rcases List.mem_singleton.mp h with rfl
          exact Or.inl rfl
        · rcases ih x h with h | ⟨l, hl, hxl⟩
          · exact Or.inl h
          · exact Or.inr ⟨l, List.mem_cons_of_mem a hl, hxl⟩

/-- Stripping trailing carriage returns and newlines is the identity on a
line containing none. -/
theorem rstripCRLF_eq_self (cs : List Char) (h : ∀ c ∈ cs, c ≠ '\r' ∧ c ≠ '\n') :
    rstripCRLF cs = cs := by
  unfold rstripCRLF
  rcases hrev : cs.reverse with _ | ⟨c, rest⟩
  · rw [List.dropWhile_nil, ← hrev, List.reverse_reverse]
  · have hc : c ∈ cs := by
      rw [← List.mem_reverse, hrev]
      exact List.mem_cons_self _ _
    obtain ⟨h1, h2⟩ := h c hc
    rw [List.dropWhile_cons, if_neg (by simp [h1, h2]), ← hrev, List.reverse_reverse]

/-- The `VERSION` line written by `save` restores `load_version = 2` and
leaves the accumulated timers unchanged. -/
theorem processLine_version_line (st : List Timer × Nat) :
    processLine st ("VERSION".data ++ '\t' :: natChars version) = some (st.1, 2) := by
  rcases st with ⟨acc, lv⟩
  rfl

/-- The empty trailing line of a store is ignored. -/
theorem processLine_empty (st : List Timer × Nat) : processLine st [] = some st := by
  rcases st with ⟨acc, lv⟩
  rfl

/-- Splitting a stored timer line recovers its five fields. -/
theorem timerLine_splitOn (t : Timer) (h : CleanTimer t) :
    (timerLine t).splitOn '\t' =
      ["TIMER".data, date_to_str (some t.start), date_to_str t.end_,
       t.name.data, t.comment.data] := by
  obtain ⟨-, -, hn, hc, -, -⟩ := h
  refine List.splitOn_intercalate _ '\t' ?_ (by simp)
  intro l hl hmem
  fin_cases hl
  · exact absurd hmem (by decide)
  · exact (date_to_str_clean (some t.start) '\t' hmem).1 rfl
  · exact (date_to_str_clean t.end_ '\t' hmem).1 rfl
  · exact (hn '\t' hmem).1 rfl
  · exact (hc '\t' hmem).1 rfl

/-- A stored timer line contains no carriage return and no newline. -/
theorem timerLine_no_crlf (t : Timer) (h : CleanTimer t) :
    ∀ c ∈ timerLine t, c ≠ '\r' ∧ c ≠ '\n' := by
  obtain ⟨-, -, hn, hc, -, -⟩ := h
  intro c hmem
  rcases mem_intercalate_sep '\t' _ c hmem with rfl | ⟨l, hl, hcl⟩
  · exact ⟨by decide, by decide⟩
  · fin_cases hl
    · fin_cases hcl <;> exact ⟨by decide, by decide⟩
    · obtain ⟨-, h2, h3⟩ := date_to_str_clean (some t.start) c hcl
      exact ⟨h3, h2⟩
    · obtain ⟨-, h2, h3⟩ := date_to_str_clean t.end_ c hcl
      exact ⟨h3, h2⟩
    · obtain ⟨-, h2, h3⟩ := hn c hcl
      exact ⟨h3, h2⟩
    · obtain ⟨-, h2, h3⟩ := hc c hcl
      exact ⟨h3, h2⟩

/-- Loading a stored timer line appends exactly the stored timer. -/
theorem processLine_timer_line (acc : List Timer) (t : Timer) (h : CleanTimer t) :
    processLine (acc, 2) (timerLine t) = some (acc ++ [t], 2) := by
  obtain ⟨hn, hc, hn2, hc2, hs, he⟩ := h
  have hstrip : rstripCRLF (timerLine t) = timerLine t :=
    rstripCRLF_eq_self _ (timerLine_no_crlf t ⟨hn, hc, hn2, hc2, hs, he⟩)
  have hsplit := timerLine_splitOn t ⟨hn, hc, hn2, hc2, hs, he⟩
  unfold processLine
  rw [hstrip, hsplit]
  dsimp only
  rw [if_neg (by decide), if_pos rfl]
  unfold parseTimerRecord
  rw [if_pos (by norm_num : (1 : Nat) < 2)]
  dsimp only
  rw [date_from_to_some t.start hs, date_from_to t.end_ he]
  dsimp only [Option.map_some']
  unfold mkTimer
  rw [hn, hc]

/-- Loading the stored timer lines appends exactly the stored timers. -/
theorem foldlM_timer_lines (ts : List Timer) :
    ∀ acc, CleanTimers ts →
      List.foldlM processLine (acc, 2) (ts.map timerLine) = some (acc ++ ts, 2) := by
  induction ts with
  | nil =>
    intro acc _
    simp
  | cons t rest ih =>
    intro acc h
    rw [List.map_cons]
    show processLine (acc, 2) (timerLine t) >>= _ = _
    rw [processLine_timer_line acc t (h t (List.mem_cons_self _ _))]
    show List.foldlM processLine (acc ++ [t], 2) (rest.map timerLine) = _
    rw [ih (acc ++ [t]) (fun u hu => h u (List.mem_cons_of_mem _ hu))]
    simp

/-- The line structure of a saved store. -/
theorem save_lines (ts : List Timer) (h : CleanTimers ts) :
    (save ts).splitOn '\n' =
      ("VERSION".data ++ '\t' :: natChars version) :: (ts.map timerLine ++ [[]]) := by
  unfold save
  refine List.splitOn_intercalate _ '\n' ?_ (by simp)
  intro l hl
  rcases List.mem_cons.mp hl with rfl | hl
  · decide
  · rcases List.mem_append.mp hl with hl | hl
    · obtain ⟨t, ht, rfl⟩ := List.mem_map.mp hl
      intro hmem
      exact (timerLine_no_crlf t (h t ht) '\n' hmem).2 rfl
    · rcases List.mem_singleton.mp hl with rfl
      simp

/-- Round trip: loading a saved store of storable timers recovers exactly
the saved timers, with the save flag clear (the store is already at the
current version). -/
theorem save_load_roundtrip (ts : List Timer) (h : CleanTimers ts) :
    load (save ts) = some (ts, false) := by
  unfold load
  rw [save_lines ts h]
  show (processLine ([], 0) _ >>= fun st => List.foldlM processLine st _).map _ = _
  rw [processLine_version_line ([], 0)]
  show (List.foldlM processLine ([], 2) (ts.map timerLine ++ [[]])).map _ = _
  rw [List.foldlM_append, foldlM_timer_lines ts [] h]
  show (processLine ([] ++ ts, 2) [] >>= fun st => List.foldlM processLine st []).map _ = _
  rw [processLine_empty ([] ++ ts, 2)]
  show Option.map _ (some ([] ++ ts, 2)) = _
  simp [version]

/-! ### The running load version -/

/-- Each successful line of the `load` loop leaves `load_version` at the
line's recorded version, or unchanged for a non-`VERSION` line. -/
theorem processLine_versionOf (st st' : List Timer × Nat) (line : List Char)
    (h : processLine st line = some st') : st'.2 = (versionOf line).getD st.2 := by
  unfold processLine at h
  unfold versionOf
  revert h
  rcases hsp : (rstripCRLF line).splitOn '\t' with _ | ⟨f0, rest⟩ <;> intro h
  · dsimp only at h
    cases h
    rfl
  · dsimp only at h
    by_cases hTag : f0 = "TAGCHAR".data
    · rw [if_pos hTag] at h
      subst hTag
      cases rest with
      | nil =>
        dsimp only at h
        exact Option.noConfusion h
      | cons f1 r2 =>
        dsimp only at h ⊢
        cases h
        rw [if_neg (by rintro ⟨h1, -⟩; exact absurd h1 (by decide))]
        rfl
    · rw [if_neg hTag] at h
      by_cases hTim : f0 = "TIMER".data
      · rw [if_pos hTim] at h
        subst hTim
        rcases Option.map_eq_some'.mp h with ⟨t, -, hmap⟩
        have h2 : st'.2 = st.2 := by rw [← hmap]
        cases rest with
        | nil => exact h2
        | cons f1 r2 =>
          dsimp only
          rw [if_neg (by rintro ⟨h1, -⟩; exact absurd h1 (by decide))]
          exact h2
      · rw [if_neg hTim] at h
        by_cases hVer : f0 = "VERSION".data
        · rw [if_pos hVer] at h
          subst hVer
          cases rest with
          | nil =>
            dsimp only at h
            exact Option.noConfusion h
          | cons f1 r2 =>
            dsimp only at h ⊢
            split at h
            · cases h
              next hdig =>
                rw [if_pos ⟨rfl, hdig⟩]
                rfl
            · exact Option.noConfusion h
        · rw [if_neg hVer] at h
          cases h
          cases rest with
          | nil => rfl
          | cons f1 r2 =>
            dsimp only
            rw [if_neg (by rintro ⟨h1, -⟩; exact hVer h1)]
            rfl

/-- Over a successful load, the final `load_version` is the last recorded
`VERSION` value, or the initial value when no line records one. -/
theorem foldlM_version (lines : List (List Char)) :
    ∀ (st st' : List Timer × Nat) (acc : Option Nat),
      ((acc = none ∧ st.2 = 0) ∨ acc = some st.2) →
      List.foldlM processLine st lines = some st' →
      ((lines.foldl (fun a line => match versionOf line with | some v => some v | none => a)
          acc = none ∧ st'.2 = 0) ∨
       lines.foldl (fun a line => match versionOf line with | some v => some v | none => a)
          acc = some st'.2) := by
  induction lines with
  | nil =>
    intro st st' acc hi h
    cases h
    simpa using hi
  | cons line rest ih =>
    intro st st' acc hi h
    have hcons : List.foldlM processLine st (line :: rest) =
        processLine st line >>= fun b => List.foldlM processLine b rest := rfl
    rcases hpl : processLine st line with _ | st1
    · rw [hcons, hpl] at h
      exact Option.noConfusion h
    · rw [hcons, hpl] at h
      have hv := processLine_versionOf st st1 line hpl
      rw [List.foldl_cons]
      refine ih st1 st' _ ?_ h
      dsimp only
      rcases hvo : versionOf line with _ | v
      · rw [hvo] at hv
        simp only [Option.getD_none] at hv
        rcases hi with ⟨ha, h0⟩ | ha
        · exact Or.inl ⟨ha, by rw [hv, h0]⟩
        · exact Or.inr (by rw [ha, hv])
      · rw [hvo] at hv
        simp only [Option.getD_some] at hv
        exact Or.inr (by rw [hv])

/-! ### Preservation of the active-timer invariant -/

/-- The backward repair scan closes or leaves closed every timer,
provided all timers except possibly the first of the (reversed) list are
closed. -/
theorem repairRev_allClosed (now : DT) (l : List Timer)
    (h : ∀ t ∈ l.tail, t.end_ ≠ none) : ∀ u ∈ repairRev now l, u.end_ ≠ none := by
  induction l with
  | nil =>
    intro u hu
    simp [repairRev] at hu
  | cons t rest ih =>
    have hrest : ∀ u ∈ rest, u.end_ ≠ none := by
      intro u hu
      exact h u (by simpa using hu)
    have ihr : ∀ u ∈ repairRev now rest, u.end_ ≠ none :=
      ih (fun u hu => hrest u ((List.tail_sublist rest).subset hu))
    intro u hu
    unfold repairRev at hu
    by_cases h1 : toSec now < toSec t.start
    · rw [if_pos h1] at hu
      rcases List.mem_cons.mp hu with rfl | hm
      · simp
      · exact ihr u hm
    · rw [if_neg h1] at hu
      by_cases h2 : t.active = true
      · rw [if_pos h2] at hu
        rcases List.mem_cons.mp hu with rfl | hm
        · simp
        · exact ihr u hm
      · rw [if_neg h2] at hu
        by_cases h3 : toSec now < toSec (t.end_.getD now)
        · rw [if_pos h3] at hu
          rcases List.mem_cons.mp hu with rfl | hm
          · simp
          · exact ihr u hm
        · rw [if_neg h3] at hu
          rcases List.mem_cons.mp hu with rfl | hm
          · intro hendt
            apply h2
            simp [Timer.active, hendt]
          · exact hrest u hm

/-- After `stop_timer`, every timer of a sequence satisfying the
invariant is closed. -/
theorem stop_timer_allClosed (now : DT) (ts : List Timer) (h : Inv ts) :
    AllClosed (stop_timer now ts) := by
  intro u hu
  rw [stop_timer, List.mem_reverse] at hu
  refine repairRev_allClosed now ts.reverse ?_ u hu
  intro v hv
  rw [List.tail_reverse] at hv
  exact h v (List.mem_reverse.mp hv)

/-- A fully closed sequence satisfies the invariant. -/
theorem allClosed_inv (ts : List Timer) (h : AllClosed ts) : Inv ts :=
  fun t ht => h t ((List.dropLast_sublist ts).subset ht)

/-- Appending a fresh active timer to a fully closed sequence keeps the
invariant. -/
theorem start_timer_inv (nm cm : String) (now : DT) (ts : List Timer)
    (h : AllClosed ts) : Inv (start_timer nm cm now ts) := by
  intro t ht
  rw [start_timer, List.dropLast_concat] at ht
  exact h t ht

/-- C2: at every point reachable by the core operations — stop, start
preceded by stop, and load of a well-formed saved store — all timers
except possibly the last are closed, so at most one timer is active and
it can only be the last element. -/
theorem c2_single_active_last (now : DT) (nm cm : String) (ts : List Timer)
    (h : Inv ts) :
    Inv (stop_timer now ts) ∧
    Inv (start_timer nm cm now (stop_timer now ts)) ∧
    (CleanTimers ts → ∀ r, load (save ts) = some r → Inv r.1) := by
  refine ⟨allClosed_inv _ (stop_timer_allClosed now ts h),
    start_timer_inv nm cm now _ (stop_timer_allClosed now ts h), ?_⟩
  intro hclean r hr
  rw [save_load_roundtrip ts hclean] at hr
  cases hr
  exact h

/-- Witness for C2 at a concrete input. -/
theorem c2_witness :
    Inv [mkTimer "a" "" ⟨2024, 1, 1, 9, 0, 0⟩ (some ⟨2024, 1, 1, 10, 0, 0⟩),
         mkTimer "b" "" ⟨2024, 1, 1, 11, 0, 0⟩ none] ∧
    (Inv (stop_timer ⟨2024, 1, 1, 12, 0, 0⟩
        [mkTimer "a" "" ⟨2024, 1, 1, 9, 0, 0⟩ (some ⟨2024, 1, 1, 10, 0, 0⟩),
         mkTimer "b" "" ⟨2024, 1, 1, 11, 0, 0⟩ none]) ∧
     Inv (start_timer "c" "" ⟨2024, 1, 1, 12, 0, 0⟩
        (stop_timer ⟨2024, 1, 1, 12, 0, 0⟩
          [mkTimer "a" "" ⟨2024, 1, 1, 9, 0, 0⟩ (some ⟨2024, 1, 1, 10, 0, 0⟩),
           mkTimer "b" "" ⟨2024, 1, 1, 11, 0, 0⟩ none])) ∧
     (CleanTimers [mkTimer "a" "" ⟨2024, 1, 1, 9, 0, 0⟩ (some ⟨2024, 1, 1, 10, 0, 0⟩),
                   mkTimer "b" "" ⟨2024, 1, 1, 11, 0, 0⟩ none] →
      ∀ r, load (save [mkTimer "a" "" ⟨2024, 1, 1, 9, 0, 0⟩ (some ⟨2024, 1, 1, 10, 0, 0⟩),
                       mkTimer "b" "" ⟨2024, 1, 1, 11, 0, 0⟩ none]) = some r → Inv r.1)) :=
  ⟨by decide,
   c2_single_active_last ⟨2024, 1, 1, 12, 0, 0⟩ "c" ""
     [mkTimer "a" "" ⟨2024, 1, 1, 9, 0, 0⟩ (some ⟨2024, 1, 1, 10, 0, 0⟩),
      mkTimer "b" "" ⟨2024, 1, 1, 11, 0, 0⟩ none] (by decide)⟩

/-! ### C9 and C10 -/

/-- C9 (counterexample to the claim as stated): a timer whose name
contains a tab is split into extra fields on load; the saved name
becomes the loaded name "a" and the loaded comment "b", so the loaded
sequence is not element-wise equal to the saved one. -/
theorem c9_counterexample :
    load (save [mkTimer "a\tb" "" ⟨2024, 1, 1, 9, 0, 0⟩ (some ⟨2024, 1, 1, 10, 0, 0⟩)]) =
      some ([mkTimer "a" "b" ⟨2024, 1, 1, 9, 0, 0⟩ (some ⟨2024, 1, 1, 10, 0, 0⟩)], false) ∧
    (mkTimer "a" "b" ⟨2024, 1, 1, 9, 0, 0⟩ (some ⟨2024, 1, 1, 10, 0, 0⟩)).name ≠
      (mkTimer "a\tb" "" ⟨2024, 1, 1, 9, 0, 0⟩ (some ⟨2024, 1, 1, 10, 0, 0⟩)).name := by
  exact ⟨by decide, by decide⟩

/-- C9 (amended): saving then loading yields a sequence equal in
(name, comment, start, end) to the saved one, element by element,
provided every timer is storable: stripped name and comment free of tab,
newline and carriage return, and calendar-valid dates. -/
theorem c9_save_load_roundtrip (ts : List Timer) (h : CleanTimers ts) :
    ∃ ts', load (save ts) = some (ts', false) ∧
      ts'.map (fun t => (t.name, t.comment, t.start, t.end_)) =
        ts.map (fun t => (t.name, t.comment, t.start, t.end_)) :=
  ⟨ts, save_load_roundtrip ts h, rfl⟩

/-- Witness for C9 (amended) at a concrete input. -/
theorem c9_witness :
    CleanTimers [mkTimer "work" "notes" ⟨2024, 1, 1, 9, 0, 0⟩ (some ⟨2024, 1, 1, 10, 0, 0⟩),
                 mkTimer "x" "" ⟨2024, 1, 2, 9, 0, 0⟩ none] ∧
    (∃ ts', load (save [mkTimer "work" "notes" ⟨2024, 1, 1, 9, 0, 0⟩ (some ⟨2024, 1, 1, 10, 0, 0⟩),
                        mkTimer "x" "" ⟨2024, 1, 2, 9, 0, 0⟩ none]) = some (ts', false) ∧
      ts'.map (fun t => (t.name, t.comment, t.start, t.end_)) =
        [mkTimer "work" "notes" ⟨2024, 1, 1, 9, 0, 0⟩ (some ⟨2024, 1, 1, 10, 0, 0⟩),
         mkTimer "x" "" ⟨2024, 1, 2, 9, 0, 0⟩ none].map
          (fun t => (t.name, t.comment, t.start, t.end_))) :=
  ⟨by decide,
   c9_save_load_roundtrip
     [mkTimer "work" "notes" ⟨2024, 1, 1, 9, 0, 0⟩ (some ⟨2024, 1, 1, 10, 0, 0⟩),
      mkTimer "x" "" ⟨2024, 1, 2, 9, 0, 0⟩ none] (by decide)⟩

/-- C10: a successful `load` reports the mutate flag set exactly when the
file's recorded `VERSION` (the last `VERSION` record, absent meaning
version 0) differs from the current format version 2; `main` then saves
the store on exit whenever this flag is set, rewriting an older-format
store even on a read-only invocation. -/
theorem c10_load_version_flag (file : List Char) (r : List Timer × Bool)
    (h : load file = some r) :
    r.2 = true ↔ recordedVersion file ≠ some version := by
  unfold load at h
  rcases hfold : List.foldlM processLine ([], 0) (file.splitOn '\n') with _ | st'
  · rw [hfold] at h
    exact Option.noConfusion h
  · rw [hfold] at h
    simp only [Option.map_some'] at h
    cases h
    have hrel := foldlM_version (file.splitOn '\n') ([], 0) st' none (Or.inl ⟨rfl, rfl⟩) hfold
    unfold recordedVersion
    rcases hrel with ⟨hnone, h0⟩ | hsome
    · rw [hnone]
      simp [h0, version]
    · rw [hsome]
      simp [version]

/-- Witness for C10 at a concrete old-format store. -/
theorem c10_witness :
    load "VERSION\t1\n".data = some ([], true) ∧
    (true = true ↔ recordedVersion "VERSION\t1\n".data ≠ some version) :=
  ⟨by decide, c10_load_version_flag "VERSION\t1\n".data ([], true) (by decide)⟩

/-! ### Name resolution -/

/-- A scan on which every search succeeds without matching yields the
no-match result. -/
theorem searchRev_none (m : String → String → Option Bool) (pat : String) (l : List Timer)
    (h : ∀ t ∈ l, m pat t.name = some false) : searchRev m pat l = some none := by
  induction l with
  | nil => rfl
  | cons t rest ih =>
    unfold searchRev
    rw [h t (List.mem_cons_self _ _)]
    exact ih (fun u hu => h u (List.mem_cons_of_mem _ hu))

/-- The search loop yields the first match when every earlier search
succeeds without matching. -/
theorem searchRev_first (m : String → String → Option Bool) (pat : String)
    (pre : List Timer) (t : Timer) (post : List Timer)
    (hpre : ∀ u ∈ pre, m pat u.name = some false) (ht : m pat t.name = some true) :
    searchRev m pat (pre ++ t :: post) = some (some t.name) := by
  induction pre with
  | nil =>
    show searchRev m pat (t :: post) = some (some t.name)
    unfold searchRev
    rw [ht]
  | cons u rest ih =>
    show searchRev m pat (u :: (rest ++ t :: post)) = some (some t.name)
    unfold searchRev
    rw [hpre u (List.mem_cons_self _ _)]
    exact ih (fun v hv => hpre v (List.mem_cons_of_mem _ hv))

/-- C4 (counterexample to the claim as stated): name resolution can fail.
With the malformed pattern `"("` and a nonempty timer sequence, the first
`re.search` call raises `re.error` and no name is produced; the same text
with an empty sequence (or the explicit flag) performs no search and
succeeds, isolating the regex call as the failure. -/
theorem c4_counterexample :
    resolve_name false reSearchUnbalanced
      [mkTimer "Project X" "" ⟨2024, 1, 1, 9, 0, 0⟩ (some ⟨2024, 1, 1, 10, 0, 0⟩)]
      "(" = none ∧
    resolve_name false reSearchUnbalanced [] "(" = some "(" ∧
    resolve_name true reSearchUnbalanced
      [mkTimer "Project X" "" ⟨2024, 1, 1, 9, 0, 0⟩ (some ⟨2024, 1, 1, 10, 0, 0⟩)]
      "(" = some "(" := by
  exact ⟨rfl, rfl, rfl⟩

/-- C4 (amended): name resolution produces a name and follows the
documented fallback provided the regular-expression engine accepts the
text on each search it performs — which is every search when the pattern
is well-formed, and vacuously when the explicit flag is set or the
sequence is empty, since then no search runs: with the explicit flag the
text is returned unchanged; otherwise the sequence is scanned most recent
first and the first accepted timer's name is returned, or the text itself
when no timer matches. -/
theorem c4_resolve_name (e : Bool) (m : String → String → Option Bool)
    (ts : List Timer) (nm : String) :
    (e = true → resolve_name e m ts nm = some nm) ∧
    (e = false → (∀ t ∈ ts, m nm t.name = some false) →
      resolve_name e m ts nm = some nm) ∧
    (e = false → ∀ pre t post, ts.reverse = pre ++ t :: post →
      (∀ u ∈ pre, m nm u.name = some false) → m nm t.name = some true →
      resolve_name e m ts nm = some t.name) := by
  refine ⟨?_, ?_, ?_⟩
  · rintro rfl
    rfl
  · rintro rfl h
    unfold resolve_name
    rw [if_pos rfl, searchRev_none m nm ts.reverse
      (fun t ht => h t (List.mem_reverse.mp ht))]
    rfl
  · rintro rfl pre t post hsplit hpre ht
    unfold resolve_name
    rw [if_pos rfl, hsplit, searchRev_first m nm pre t post hpre ht]
    rfl

/-- Witness for C4 (amended) at concrete inputs: explicit text kept,
unmatched text kept, and a pattern resolved to the most recent matching
timer's name. -/
theorem c4_witness :
    resolve_name true (fun p s => some (List.isPrefixOf p.data s.data))
      [mkTimer "Project X" "" ⟨2024, 1, 1, 9, 0, 0⟩ (some ⟨2024, 1, 1, 10, 0, 0⟩),
       mkTimer "Lunch" "" ⟨2024, 1, 1, 12, 0, 0⟩ (some ⟨2024, 1, 1, 13, 0, 0⟩)]
      "zzz" = some "zzz" ∧
    resolve_name false (fun p s => some (List.isPrefixOf p.data s.data))
      [mkTimer "Project X" "" ⟨2024, 1, 1, 9, 0, 0⟩ (some ⟨2024, 1, 1, 10, 0, 0⟩),
       mkTimer "Lunch" "" ⟨2024, 1, 1, 12, 0, 0⟩ (some ⟨2024, 1, 1, 13, 0, 0⟩)]
      "zzz" = some "zzz" ∧
    resolve_name false (fun p s => some (List.isPrefixOf p.data s.data))
      [mkTimer "Project X" "" ⟨2024, 1, 1, 9, 0, 0⟩ (some ⟨2024, 1, 1, 10, 0, 0⟩),
       mkTimer "Lunch" "" ⟨2024, 1, 1, 12, 0, 0⟩ (some ⟨2024, 1, 1, 13, 0, 0⟩)]
      "Pro" = some "Project X" := by
  refine ⟨(c4_resolve_name true _ _ "zzz").1 rfl,
    (c4_resolve_name false _ _ "zzz").2.1 rfl (by decide), ?_⟩
  have h3 := (c4_resolve_name false (fun p s => some (List.isPrefixOf p.data s.data))
    [mkTimer "Project X" "" ⟨2024, 1, 1, 9, 0, 0⟩ (some ⟨2024, 1, 1, 10, 0, 0⟩),
     mkTimer "Lunch" "" ⟨2024, 1, 1, 12, 0, 0⟩ (some ⟨2024, 1, 1, 13, 0, 0⟩)]
    "Pro").2.2 rfl
    [mkTimer "Lunch" "" ⟨2024, 1, 1, 12, 0, 0⟩ (some ⟨2024, 1, 1, 13, 0, 0⟩)]
    (mkTimer "Project X" "" ⟨2024, 1, 1, 9, 0, 0⟩ (some ⟨2024, 1, 1, 10, 0, 0⟩))
    [] (by decide) (by decide) (by decide)
  simpa using h3

/-! ### Empty-sequence reports -/

/-- C5: on an empty timer sequence, `report()` and `report_cal()` print
the user message and return; `report_break_in_service()` instead indexes
`timers[0]` and raises — modelled by `none`. -/
theorem c5_empty_reports (cur : DT) :
    report cur [] = [REv.msg "No timers to report"] ∧
    report_cal cur [] = [CEv.msg "No timers to report"] ∧
    report_break_in_service [] = none :=
  ⟨rfl, rfl, rfl⟩

/-! ### Break-in-service report -/

/-- The break loop reports exactly the oversized gaps between consecutive
start dates. -/
theorem breakLoop_zip (l : List Timer) :
    ∀ p : Timer, breakLoop p.start l =
      ((p :: l).zip l).filterMap (fun q =>
        if 3 < (toordinal q.2.start : Int) - (toordinal q.1.start : Int) - 1 then
          some ⟨(toordinal q.1.start : Int) + 1, (toordinal q.2.start : Int) - 1,
            (toordinal q.2.start : Int) - (toordinal q.1.start : Int) - 1⟩
        else none) := by
  induction l with
  | nil =>
    intro p
    rfl
  | cons t rest ih =>
    intro p
    show (if 3 < (toordinal t.start : Int) - 1 - ((toordinal p.start : Int) + 1) + 1 then
        [BEv.mk ((toordinal p.start : Int) + 1) ((toordinal t.start : Int) - 1)
          ((toordinal t.start : Int) - 1 - ((toordinal p.start : Int) + 1) + 1)]
      else []) ++ breakLoop t.start rest = _
    rw [List.zip_cons_cons, List.filterMap_cons, ih t]
    have harith : (toordinal t.start : Int) - 1 - ((toordinal p.start : Int) + 1) + 1 =
        (toordinal t.start : Int) - (toordinal p.start : Int) - 1 := by ring
    rw [harith]
    by_cases hg : 3 < (toordinal t.start : Int) - (toordinal p.start : Int) - 1
    · rw [if_pos hg, if_pos hg]
      rfl
    · rw [if_neg hg, if_neg hg]
      rfl

/-- C8: for every pair of consecutive timers, the break-in-service report
lists the days strictly between their start dates, as a range with day
count, exactly when that count exceeds 3. -/
theorem c8_break_in_service (ts : List Timer) (h : ts ≠ []) :
    report_break_in_service ts = some (breakSpec ts) := by
  rcases ts with _ | ⟨t0, rest⟩
  · exact absurd rfl h
  · unfold report_break_in_service breakSpec
    dsimp only
    rw [breakLoop_zip (t0 :: rest) t0, List.zip_cons_cons, List.filterMap_cons]
    rw [if_neg (show ¬ (3 : Int) < (toordinal t0.start : Int) - (toordinal t0.start : Int) - 1
      by omega)]
    rfl

/-- Witness for C8 at the spec's example: starts on Jan 1, Jan 2 and
Jan 10 of 2024; only the 7-day gap Jan 3 .. Jan 9 is reported. -/
theorem c8_witness :
    ([mkTimer "a" "" ⟨2024, 1, 1, 9, 0, 0⟩ (some ⟨2024, 1, 1, 10, 0, 0⟩),
      mkTimer "b" "" ⟨2024, 1, 2, 9, 0, 0⟩ (some ⟨2024, 1, 2, 10, 0, 0⟩),
      mkTimer "c" "" ⟨2024, 1, 10, 9, 0, 0⟩ (some ⟨2024, 1, 10, 10, 0, 0⟩)] ≠
        ([] : List Timer)) ∧
    report_break_in_service
      [mkTimer "a" "" ⟨2024, 1, 1, 9, 0, 0⟩ (some ⟨2024, 1, 1, 10, 0, 0⟩),
       mkTimer "b" "" ⟨2024, 1, 2, 9, 0, 0⟩ (some ⟨2024, 1, 2, 10, 0, 0⟩),
       mkTimer "c" "" ⟨2024, 1, 10, 9, 0, 0⟩ (some ⟨2024, 1, 10, 10, 0, 0⟩)] =
      some (breakSpec
        [mkTimer "a" "" ⟨2024, 1, 1, 9, 0, 0⟩ (some ⟨2024, 1, 1, 10, 0, 0⟩),
         mkTimer "b" "" ⟨2024, 1, 2, 9, 0, 0⟩ (some ⟨2024, 1, 2, 10, 0, 0⟩),
         mkTimer "c" "" ⟨2024, 1, 10, 9, 0, 0⟩ (some ⟨2024, 1, 10, 10, 0, 0⟩)]) ∧
    breakSpec
      [mkTimer "a" "" ⟨2024, 1, 1, 9, 0, 0⟩ (some ⟨2024, 1, 1, 10, 0, 0⟩),
       mkTimer "b" "" ⟨2024, 1, 2, 9, 0, 0⟩ (some ⟨2024, 1, 2, 10, 0, 0⟩),
       mkTimer "c" "" ⟨2024, 1, 10, 9, 0, 0⟩ (some ⟨2024, 1, 10, 10, 0, 0⟩)] =
      [⟨738888, 738894, 7⟩] :=
  ⟨by decide,
   c8_break_in_service
     [mkTimer "a" "" ⟨2024, 1, 1, 9, 0, 0⟩ (some ⟨2024, 1, 1, 10, 0, 0⟩),
      mkTimer "b" "" ⟨2024, 1, 2, 9, 0, 0⟩ (some ⟨2024, 1, 2, 10, 0, 0⟩),
      mkTimer "c" "" ⟨2024, 1, 10, 9, 0, 0⟩ (some ⟨2024, 1, 10, 10, 0, 0⟩)] (by decide),
   by decide⟩

/-! ### Tally sums -/

/-- A dict bump adds its increment to the value sum. -/
theorem sumVals_upsert (m : List (String × Int)) (k : String) (d : Int) :
    sumVals (upsert m k d) = sumVals m + d := by
  induction m with
  | nil => simp [upsert, sumVals]
  | cons p rest ih =>
    rcases p with ⟨k', v⟩
    unfold upsert
    by_cases h : k' = k
    · rw [if_pos h]
      simp only [sumVals, List.map_cons, List.sum_cons] at *
      ring
    · rw [if_neg h]
      simp only [sumVals, List.map_cons, List.sum_cons] at ih ⊢
      omega

/-- Bumping once per tag adds the increment once per tag. -/
theorem sumVals_upsert_fold (tags : List String) (d : Int) :
    ∀ m, sumVals (tags.foldl (fun mm tg => upsert mm tg d) m) =
      sumVals m + tags.length * d := by
  induction tags with
  | nil =>
    intro m
    simp
  | cons tg rest ih =>
    intro m
    rw [List.foldl_cons, ih (upsert m tg d), sumVals_upsert, List.length_cons]
    push_cast
    ring

/-- Accumulating one timer onto a tally. -/
theorem TallyOf_append (cur : DT) (run : List Timer) (t : Timer) :
    TallyOf cur (run ++ [t]) = add_duration cur t (TallyOf cur run) := by
  unfold TallyOf
  rw [List.foldl_append, List.foldl_cons, List.foldl_nil]

/-- The name-column sum of an accumulated tally is the sum of the
accumulated durations. -/
theorem tally_name_sum (cur : DT) (run : List Timer) :
    ∀ tot : Tally, sumVals (run.foldl (fun tt t => add_duration cur t tt) tot).1 =
      sumVals tot.1 + (run.map (fun t => t.duration cur)).sum := by
  induction run with
  | nil =>
    intro tot
    simp
  | cons t rest ih =>
    intro tot
    rw [List.foldl_cons, ih]
    show sumVals (upsert tot.1 t.name (t.duration cur)) + _ = _
    rw [sumVals_upsert, List.map_cons, List.sum_cons]
    ring

/-- The tag-column sum of an accumulated tally is the sum of the
accumulated durations, when every accumulated timer has exactly one
tag. -/
theorem tally_tag_sum (cur : DT) (run : List Timer)
    (hsing : ∀ x ∈ run, x.tags.length = 1) :
    ∀ tot : Tally, sumVals (run.foldl (fun tt t => add_duration cur t tt) tot).2 =
      sumVals tot.2 + (run.map (fun t => t.duration cur)).sum := by
  induction run with
  | nil =>
    intro tot
    simp
  | cons t rest ih =>
    intro tot
    rw [List.foldl_cons, ih (fun x hx => hsing x (List.mem_cons_of_mem _ hx))]
    show sumVals (t.tags.foldl (fun mm tg => upsert mm tg (t.duration cur)) tot.2) + _ = _
    rw [sumVals_upsert_fold, hsing t (List.mem_cons_self _ _), List.map_cons, List.sum_cons]
    push_cast
    ring

/-! ### The report loop, one granularity at a time -/

/-- The daily flushes of the report loop are those of the single-day
loop. -/
theorem dailyOf_reportLoop (cur : DT) (ts : List Timer) :
    ∀ prev dTot wTot mTot,
      dailyOf (reportLoop cur prev dTot wTot mTot ts) = gLoop cur same_day prev dTot ts := by
  induction ts with
  | nil =>
    intro prev d w m
    rfl
  | cons t rest ih =>
    intro prev d w m
    unfold reportLoop gLoop
    dsimp only
    by_cases h1 : same_day prev t.start <;>
      by_cases h2 : same_week prev t.start <;>
      by_cases h3 : same_month prev t.start <;>
      simp [dailyOf, List.filterMap_append, ih, h1, h2, h3] <;>
      exact ih _ _ _ _

/-- The weekly flushes of the report loop are those of the single-week
loop. -/
theorem weeklyOf_reportLoop (cur : DT) (ts : List Timer) :
    ∀ prev dTot wTot mTot,
      weeklyOf (reportLoop cur prev dTot wTot mTot ts) = gLoop cur same_week prev wTot ts := by
  induction ts with
  | nil =>
    intro prev d w m
    rfl
  | cons t rest ih =>
    intro prev d w m
    unfold reportLoop gLoop
    dsimp only
    by_cases h1 : same_day prev t.start <;>
      by_cases h2 : same_week prev t.start <;>
      by_cases h3 : same_month prev t.start <;>
      simp [weeklyOf, List.filterMap_append, ih, h1, h2, h3] <;>
      exact ih _ _ _ _

/-- The monthly flushes of the report loop are those of the single-month
loop. -/
theorem monthlyOf_reportLoop (cur : DT) (ts : List Timer) :
    ∀ prev dTot wTot mTot,
      monthlyOf (reportLoop cur prev dTot wTot mTot ts) = gLoop cur same_month prev mTot ts := by
  induction ts with
  | nil =>
    intro prev d w m
    rfl
  | cons t rest ih =>
    intro prev d w m
    unfold reportLoop gLoop
    dsimp only
    by_cases h1 : same_day prev t.start <;>
      by_cases h2 : same_week prev t.start <;>
      by_cases h3 : same_month prev t.start <;>
      simp [monthlyOf, List.filterMap_append, ih, h1, h2, h3] <;>
      exact ih _ _ _ _

/-- `same_day` is reflexive. -/
theorem same_day_refl (a : DT) : same_day a a = true := by
  simp [same_day]

/-- `same_day` is transitive. -/
theorem same_day_trans (a b c : DT) (h1 : same_day a b = true) (h2 : same_day b c = true) :
    same_day a c = true := by
  simp only [same_day, beq_iff_eq] at *
  omega

/-- `same_week` is reflexive. -/
theorem same_week_refl (a : DT) : same_week a a = true := by
  simp [same_week]

/-- `same_week` is transitive. -/
theorem same_week_trans (a b c : DT) (h1 : same_week a b = true) (h2 : same_week b c = true) :
    same_week a c = true := by
  simp only [same_week, Bool.and_eq_true, beq_iff_eq] at *
  exact ⟨⟨h1.1.1.trans h2.1.1, h1.1.2.trans h2.1.2⟩, h1.2.trans h2.2⟩

/-- `same_month` is reflexive. -/
theorem same_month_refl (a : DT) : same_month a a = true := by
  simp [same_month]

/-- `same_month` is transitive. -/
theorem same_month_trans (a b c : DT) (h1 : same_month a b = true)
    (h2 : same_month b c = true) : same_month a c = true := by
  simp only [same_month, Bool.and_eq_true, beq_iff_eq] at *
  exact ⟨h1.1.trans h2.1, h1.2.trans h2.2⟩

/-- Every bucket flushed by the single-granularity loop is accumulated
from a subsequence of the input whose starts all fall in the bucket's
period. -/
theorem gLoop_mem (cur : DT) (eqd : DT → DT → Bool)
    (hrefl : ∀ a, eqd a a = true)
    (htrans : ∀ a b c, eqd a b = true → eqd b c = true → eqd a c = true) :
    ∀ (ts : List Timer) (prev : DT) (run0 : List Timer),
      (∀ x ∈ run0, eqd x.start prev = true) →
      ∀ dd tal, (dd, tal) ∈ gLoop cur eqd prev (TallyOf cur run0) ts →
      ∃ run : List Timer, run.Sublist (run0 ++ ts) ∧
        (∀ x ∈ run, eqd x.start dd = true) ∧ tal = TallyOf cur run := by
  intro ts
  induction ts with
  | nil =>
    intro prev run0 hrun dd tal hmem
    have := List.mem_singleton.mp hmem
    rw [Prod.mk.injEq] at this
    obtain ⟨rfl, rfl⟩ := this
    exact ⟨run0, by simp, hrun, rfl⟩
  | cons t rest ih =>
    intro prev run0 hrun dd tal hmem
    unfold gLoop at hmem
    by_cases he : eqd prev t.start = true
    · rw [if_pos he, ← TallyOf_append cur run0 t] at hmem
      have hinv : ∀ x ∈ run0 ++ [t], eqd x.start t.start = true := by
        intro x hx
        rcases List.mem_append.mp hx with hx | hx
        · exact htrans _ _ _ (hrun x hx) he
        · rcases List.mem_singleton.mp hx with rfl
          exact hrefl _
      obtain ⟨run, hsub, hall, heq⟩ := ih t.start (run0 ++ [t]) hinv dd tal hmem
      exact ⟨run, by simpa using hsub, hall, heq⟩
    · rw [if_neg he] at hmem
      rcases List.mem_cons.mp hmem with heq | hmem2
      · rw [Prod.mk.injEq] at heq
        obtain ⟨rfl, rfl⟩ := heq
        exact ⟨run0, List.sublist_append_left run0 (t :: rest), hrun, rfl⟩
      · have hre : (add_duration cur t ([], []) : Tally) = TallyOf cur [t] := rfl
        rw [hre] at hmem2
        have hinv : ∀ x ∈ [t], eqd x.start t.start = true := by
          intro x hx
          rcases List.mem_singleton.mp hx with rfl
          exact hrefl _
        obtain ⟨run, hsub, hall, heq⟩ := ih t.start [t] hinv dd tal hmem2
        exact ⟨run, hsub.trans (List.sublist_append_right run0 (t :: rest)), hall, heq⟩

/-- C6 (counterexample to the claim as stated, see `c6_report_bucket_sums`
for the amended version): on a sequence whose start dates are not
chronologically grouped (Jan 1, Jan 2, Jan 1), the first flushed daily
bucket tallies 3600 seconds, while the total duration of all timers of
the sequence whose start falls on that day is 7200 seconds. -/
theorem c6_counterexample :
    (⟨2024, 1, 1, 9, 0, 0⟩,
      ([("a", 3600)], [("No tags", 3600)])) ∈
      dailyOf (report ⟨2024, 1, 3, 0, 0, 0⟩
        [mkTimer "a" "" ⟨2024, 1, 1, 9, 0, 0⟩ (some ⟨2024, 1, 1, 10, 0, 0⟩),
         mkTimer "b" "" ⟨2024, 1, 2, 9, 0, 0⟩ (some ⟨2024, 1, 2, 10, 0, 0⟩),
         mkTimer "c" "" ⟨2024, 1, 1, 11, 0, 0⟩ (some ⟨2024, 1, 1, 12, 0, 0⟩)]) ∧
    sumVals ([("a", 3600)] : List (String × Int)) = 3600 ∧
    (([mkTimer "a" "" ⟨2024, 1, 1, 9, 0, 0⟩ (some ⟨2024, 1, 1, 10, 0, 0⟩),
       mkTimer "b" "" ⟨2024, 1, 2, 9, 0, 0⟩ (some ⟨2024, 1, 2, 10, 0, 0⟩),
       mkTimer "c" "" ⟨2024, 1, 1, 11, 0, 0⟩ (some ⟨2024, 1, 1, 12, 0, 0⟩)].filter
        (fun x => same_day x.start ⟨2024, 1, 1, 9, 0, 0⟩)).map
      (fun t => t.duration ⟨2024, 1, 3, 0, 0, 0⟩)).sum = 7200 ∧
    (3600 : Int) ≠ 7200 := by
  refine ⟨?_, by decide, ?_, by decide⟩
  · decide
  · decide

/-- C6 (amended): every bucket (day, week, month) flushed by `report()`
tallies, summed over all names, exactly the total duration of the timers
accumulated into it — a subsequence of the input whose starts all fall in
the bucket's period — and the tag tally sums to the same total whenever
every accumulated timer has exactly one tag.  (For chronologically
ordered input these accumulated timers are all the timers of the period;
for unordered input they need not be, see the counterexample.) -/
theorem c6_report_bucket_sums (cur : DT) (ts : List Timer) :
    (∀ dd tal, (dd, tal) ∈ dailyOf (report cur ts) → ∃ run : List Timer,
       run.Sublist ts ∧ (∀ x ∈ run, same_day x.start dd = true) ∧
       sumVals tal.1 = (run.map (fun t => t.duration cur)).sum ∧
       ((∀ x ∈ run, x.tags.length = 1) →
         sumVals tal.2 = (run.map (fun t => t.duration cur)).sum)) ∧
    (∀ dd tal, (dd, tal) ∈ weeklyOf (report cur ts) → ∃ run : List Timer,
       run.Sublist ts ∧ (∀ x ∈ run, same_week x.start dd = true) ∧
       sumVals tal.1 = (run.map (fun t => t.duration cur)).sum ∧
       ((∀ x ∈ run, x.tags.length = 1) →
         sumVals tal.2 = (run.map (fun t => t.duration cur)).sum)) ∧
    (∀ dd tal, (dd, tal) ∈ monthlyOf (report cur ts) → ∃ run : List Timer,
       run.Sublist ts ∧ (∀ x ∈ run, same_month x.start dd = true) ∧
       sumVals tal.1 = (run.map (fun t => t.duration cur)).sum ∧
       ((∀ x ∈ run, x.tags.length = 1) →
         sumVals tal.2 = (run.map (fun t => t.duration cur)).sum)) := by
  rcases hts : ts with _ | ⟨t0, rest⟩
  · refine ⟨?_, ?_, ?_⟩ <;> (intro dd tal hmem; simp [report, dailyOf, weeklyOf, monthlyOf] at hmem)
  · have hrep : report cur (t0 :: rest) =
        reportLoop cur t0.start ([], []) ([], []) ([], []) (t0 :: rest) := rfl
    have h0 : (([], []) : Tally) = TallyOf cur [] := rfl
    refine ⟨?_, ?_, ?_⟩ <;> intro dd tal hmem
    · rw [hrep, dailyOf_reportLoop, h0] at hmem
      obtain ⟨run, hsub, hall, heq⟩ :=
        gLoop_mem cur same_day same_day_refl same_day_trans (t0 :: rest) t0.start []
          (by simp) dd tal hmem
      refine ⟨run, by simpa using hsub, hall, ?_, ?_⟩
      · rw [heq]
        simpa [sumVals] using tally_name_sum cur run ([], [])
      · intro hsing
        rw [heq]
        simpa [sumVals] using tally_tag_sum cur run hsing ([], [])
    · rw [hrep, weeklyOf_reportLoop, h0] at hmem
      obtain ⟨run, hsub, hall, heq⟩ :=
        gLoop_mem cur same_week same_week_refl same_week_trans (t0 :: rest) t0.start []
          (by simp) dd tal hmem
      refine ⟨run, by simpa using hsub, hall, ?_, ?_⟩
      · rw [heq]
        simpa [sumVals] using tally_name_sum cur run ([], [])
      · intro hsing
        rw [heq]
        simpa [sumVals] using tally_tag_sum cur run hsing ([], [])
    · rw [hrep, monthlyOf_reportLoop, h0] at hmem
      obtain ⟨run, hsub, hall, heq⟩ :=
        gLoop_mem cur same_month same_month_refl same_month_trans (t0 :: rest) t0.start []
          (by simp) dd tal hmem
      refine ⟨run, by simpa using hsub, hall, ?_, ?_⟩
      · rw [heq]
        simpa [sumVals] using tally_name_sum cur run ([], [])
      · intro hsing
        rw [heq]
        simpa [sumVals] using tally_tag_sum cur run hsing ([], [])

/-- Witness for C6 (amended) at a concrete report. -/
theorem c6_witness :
    ((⟨2024, 1, 1, 9, 0, 0⟩, ([("work", 3600)], [("No tags", 3600)])) ∈
      dailyOf (report ⟨2024, 1, 2, 0, 0, 0⟩
        [mkTimer "work" "" ⟨2024, 1, 1, 9, 0, 0⟩ (some ⟨2024, 1, 1, 10, 0, 0⟩)])) ∧
    (∃ run : List Timer,
       run.Sublist [mkTimer "work" "" ⟨2024, 1, 1, 9, 0, 0⟩ (some ⟨2024, 1, 1, 10, 0, 0⟩)] ∧
       (∀ x ∈ run, same_day x.start (⟨2024, 1, 1, 9, 0, 0⟩ : DT) = true) ∧
       sumVals ([("work", 3600)] : List (String × Int)) =
         (run.map (fun t => t.duration ⟨2024, 1, 2, 0, 0, 0⟩)).sum ∧
       ((∀ x ∈ run, x.tags.length = 1) →
         sumVals ([("No tags", 3600)] : List (String × Int)) =
           (run.map (fun t => t.duration ⟨2024, 1, 2, 0, 0, 0⟩)).sum)) :=
  ⟨by decide,
   (c6_report_bucket_sums ⟨2024, 1, 2, 0, 0, 0⟩
     [mkTimer "work" "" ⟨2024, 1, 1, 9, 0, 0⟩ (some ⟨2024, 1, 1, 10, 0, 0⟩)]).1
     ⟨2024, 1, 1, 9, 0, 0⟩ (([("work", 3600)], [("No tags", 3600)])) (by decide)⟩

/-! ### Calendar report boundaries -/

/-- Scanning one more timer extends the emitted events by the step's
events and moves to the step's state. -/
theorem calLoop_append (cur : DT) (l : List Timer) (t : Timer) :
    ∀ st : CalSt, calLoop cur st (l ++ [t]) =
      ((calLoop cur st l).1 ++ (calStep cur (calLoop cur st l).2 t).1,
       (calStep cur (calLoop cur st l).2 t).2) := by
  induction l with
  | nil =>
    intro st
    simp [calLoop]
  | cons u rest ih =>
    intro st
    show calLoop cur st (u :: (rest ++ [t])) = _
    unfold calLoop
    dsimp only
    rw [ih (calStep cur st u).2]
    simp [calLoop, List.append_assoc]

/-- Every step of the calendar scan sets the previous date to the
consumed timer's start. -/
theorem calStep_prev (cur : DT) (st : CalSt) (t : Timer) :
    (calStep cur st t).2.prev = t.start := by
  unfold calStep
  split_ifs <;> rfl

/-- After scanning a nonempty sequence the previous date is the last
timer's start. -/
theorem calScan_prev (cur : DT) (ts : List Timer) (h : ts ≠ []) :
    (calScan cur ts).2.prev = (ts.getLast h).start := by
  rcases List.eq_nil_or_concat' ts with rfl | ⟨l, t, rfl⟩
  · exact absurd rfl h
  · unfold calScan
    rw [calLoop_append, List.getLast_concat]
    exact calStep_prev cur _ t

/-- Extending a nonempty sequence by one timer extends the calendar scan
by one step from the same initial state. -/
theorem calScan_append (cur : DT) (t0 : Timer) (rest : List Timer) (t : Timer) :
    calScan cur ((t0 :: rest) ++ [t]) =
      ((calScan cur (t0 :: rest)).1 ++
         (calStep cur (calScan cur (t0 :: rest)).2 t).1,
       (calStep cur (calScan cur (t0 :: rest)).2 t).2) := by
  unfold calScan
  rw [show (t0 :: rest) ++ [t] = t0 :: (rest ++ [t]) from rfl]
  rw [show (t0 :: (rest ++ [t])).head? = some t0 from rfl]
  rw [show (t0 :: rest).head? = some t0 from rfl]
  exact calLoop_append cur (t0 :: rest) t ⟨t0.start, ([], []), ([], [])⟩

/-- C7: in `report_cal()`, when two consecutive timers fall in different
calendar months, the weekly and the monthly tallies are both flushed (with
the earlier timer's date) and reset before the new timer is accumulated;
when they fall in the same month but different weeks, only the weekly
tally is flushed and the monthly tally keeps accumulating. -/
theorem c7_report_cal_boundaries (cur : DT) (ts : List Timer) (t : Timer) (h : ts ≠ []) :
    (same_month ((ts.getLast h).start) t.start = false →
      report_cal cur (ts ++ [t]) =
        CEv.sep :: ((calScan cur ts).1 ++
          [CEv.weeklyCal ((ts.getLast h).start) (calScan cur ts).2.w,
           CEv.monthly ((ts.getLast h).start) (calScan cur ts).2.m, CEv.sep] ++
          [CEv.weeklyCal t.start (add_duration_week cur t ([], [])),
           CEv.monthly t.start (add_duration cur t ([], []))])) ∧
    (same_month ((ts.getLast h).start) t.start = true →
      same_week ((ts.getLast h).start) t.start = false →
      report_cal cur (ts ++ [t]) =
        CEv.sep :: ((calScan cur ts).1 ++
          [CEv.weeklyCal ((ts.getLast h).start) (calScan cur ts).2.w] ++
          [CEv.weeklyCal t.start (add_duration_week cur t ([], [])),
           CEv.monthly t.start (add_duration cur t (calScan cur ts).2.m)])) := by
  rcases ts with _ | ⟨t0, rest⟩
  · exact absurd rfl h
  · have hprev := calScan_prev cur (t0 :: rest) h
    have hrep : report_cal cur ((t0 :: rest) ++ [t]) =
        CEv.sep :: ((calScan cur ((t0 :: rest) ++ [t])).1 ++
          [CEv.weeklyCal (calScan cur ((t0 :: rest) ++ [t])).2.prev
            (calScan cur ((t0 :: rest) ++ [t])).2.w,
           CEv.monthly (calScan cur ((t0 :: rest) ++ [t])).2.prev
            (calScan cur ((t0 :: rest) ++ [t])).2.m]) := rfl
    constructor
    · intro hm
      have hstep : calStep cur (calScan cur (t0 :: rest)).2 t =
          ([CEv.weeklyCal ((t0 :: rest).getLast h).start (calScan cur (t0 :: rest)).2.w,
            CEv.monthly ((t0 :: rest).getLast h).start (calScan cur (t0 :: rest)).2.m,
            CEv.sep],
           ⟨t.start, add_duration_week cur t ([], []), add_duration cur t ([], [])⟩) := by
        unfold calStep
        rw [hprev, hm, if_pos rfl]
      rw [hrep, calScan_append, hstep]
    · intro hm hw
      have hstep : calStep cur (calScan cur (t0 :: rest)).2 t =
          ([CEv.weeklyCal ((t0 :: rest).getLast h).start (calScan cur (t0 :: rest)).2.w],
           ⟨t.start, add_duration_week cur t ([], []),
            add_duration cur t (calScan cur (t0 :: rest)).2.m⟩) := by
        unfold calStep
        rw [hprev, hm, hw, if_neg (by simp), if_pos rfl]
      rw [hrep, calScan_append, hstep]

/-- Witness for C7: a month boundary (Jan 31 to Feb 1, 2024) flushes
both tallies, and a pure week boundary (Jan 1 to Jan 8, 2024) flushes
only the weekly tally. -/
theorem c7_witness :
    (same_month ((([mkTimer "a" "" ⟨2024, 1, 31, 9, 0, 0⟩
          (some ⟨2024, 1, 31, 10, 0, 0⟩)]).getLast (by decide)).start)
        (⟨2024, 2, 1, 9, 0, 0⟩ : DT) = false ∧
     report_cal ⟨2024, 2, 2, 0, 0, 0⟩
        ([mkTimer "a" "" ⟨2024, 1, 31, 9, 0, 0⟩ (some ⟨2024, 1, 31, 10, 0, 0⟩)] ++
         [mkTimer "b" "" ⟨2024, 2, 1, 9, 0, 0⟩ (some ⟨2024, 2, 1, 10, 0, 0⟩)]) =
       CEv.sep :: ((calScan ⟨2024, 2, 2, 0, 0, 0⟩
           [mkTimer "a" "" ⟨2024, 1, 31, 9, 0, 0⟩ (some ⟨2024, 1, 31, 10, 0, 0⟩)]).1 ++
         [CEv.weeklyCal ((([mkTimer "a" "" ⟨2024, 1, 31, 9, 0, 0⟩
              (some ⟨2024, 1, 31, 10, 0, 0⟩)]).getLast (by decide)).start)
            (calScan ⟨2024, 2, 2, 0, 0, 0⟩
              [mkTimer "a" "" ⟨2024, 1, 31, 9, 0, 0⟩ (some ⟨2024, 1, 31, 10, 0, 0⟩)]).2.w,
          CEv.monthly ((([mkTimer "a" "" ⟨2024, 1, 31, 9, 0, 0⟩
              (some ⟨2024, 1, 31, 10, 0, 0⟩)]).getLast (by decide)).start)
            (calScan ⟨2024, 2, 2, 0, 0, 0⟩
              [mkTimer "a" "" ⟨2024, 1, 31, 9, 0, 0⟩ (some ⟨2024, 1, 31, 10, 0, 0⟩)]).2.m,
          CEv.sep] ++
         [CEv.weeklyCal (⟨2024, 2, 1, 9, 0, 0⟩ : DT)
            (add_duration_week ⟨2024, 2, 2, 0, 0, 0⟩
              (mkTimer "b" "" ⟨2024, 2, 1, 9, 0, 0⟩ (some ⟨2024, 2, 1, 10, 0, 0⟩)) ([], [])),
          CEv.monthly (⟨2024, 2, 1, 9, 0, 0⟩ : DT)
            (add_duration ⟨2024, 2, 2, 0, 0, 0⟩
              (mkTimer "b" "" ⟨2024, 2, 1, 9, 0, 0⟩ (some ⟨2024, 2, 1, 10, 0, 0⟩))
              ([], []))])) ∧
    (same_month ((([mkTimer "a" "" ⟨2024, 1, 1, 9, 0, 0⟩
          (some ⟨2024, 1, 1, 10, 0, 0⟩)]).getLast (by decide)).start)
        (⟨2024, 1, 8, 9, 0, 0⟩ : DT) = true ∧
     same_week ((([mkTimer "a" "" ⟨2024, 1, 1, 9, 0, 0⟩
          (some ⟨2024, 1, 1, 10, 0, 0⟩)]).getLast (by decide)).start)
        (⟨2024, 1, 8, 9, 0, 0⟩ : DT) = false ∧
     report_cal ⟨2024, 1, 9, 0, 0, 0⟩
        ([mkTimer "a" "" ⟨2024, 1, 1, 9, 0, 0⟩ (some ⟨2024, 1, 1, 10, 0, 0⟩)] ++
         [mkTimer "b" "" ⟨2024, 1, 8, 9, 0, 0⟩ (some ⟨2024, 1, 8, 10, 0, 0⟩)]) =
       CEv.sep :: ((calScan ⟨2024, 1, 9, 0, 0, 0⟩
           [mkTimer "a" "" ⟨2024, 1, 1, 9, 0, 0⟩ (some ⟨2024, 1, 1, 10, 0, 0⟩)]).1 ++
         [CEv.weeklyCal ((([mkTimer "a" "" ⟨2024, 1, 1, 9, 0, 0⟩
              (some ⟨2024, 1, 1, 10, 0, 0⟩)]).getLast (by decide)).start)
            (calScan ⟨2024, 1, 9, 0, 0, 0⟩
              [mkTimer "a" "" ⟨2024, 1, 1, 9, 0, 0⟩ (some ⟨2024, 1, 1, 10, 0, 0⟩)]).2.w] ++
         [CEv.weeklyCal (⟨2024, 1, 8, 9, 0, 0⟩ : DT)
            (add_duration_week ⟨2024, 1, 9, 0, 0, 0⟩
              (mkTimer "b" "" ⟨2024, 1, 8, 9, 0, 0⟩ (some ⟨2024, 1, 8, 10, 0, 0⟩)) ([], [])),
          CEv.monthly (⟨2024, 1, 8, 9, 0, 0⟩ : DT)
            (add_duration ⟨2024, 1, 9, 0, 0, 0⟩
              (mkTimer "b" "" ⟨2024, 1, 8, 9, 0, 0⟩ (some ⟨2024, 1, 8, 10, 0, 0⟩))
              (calScan ⟨2024, 1, 9, 0, 0, 0⟩
                [mkTimer "a" "" ⟨2024, 1, 1, 9, 0, 0⟩
                  (some ⟨2024, 1, 1, 10, 0, 0⟩)]).2.m)])) := by
  refine ⟨⟨by decide, ?_⟩, by decide, by decide, ?_⟩
  · exact (c7_report_cal_boundaries ⟨2024, 2, 2, 0, 0, 0⟩
      [mkTimer "a" "" ⟨2024, 1, 31, 9, 0, 0⟩ (some ⟨2024, 1, 31, 10, 0, 0⟩)]
      (mkTimer "b" "" ⟨2024, 2, 1, 9, 0, 0⟩ (some ⟨2024, 2, 1, 10, 0, 0⟩))
      (by decide)).1 (by decide)
  · exact (c7_report_cal_boundaries ⟨2024, 1, 9, 0, 0, 0⟩
      [mkTimer "a" "" ⟨2024, 1, 1, 9, 0, 0⟩ (some ⟨2024, 1, 1, 10, 0, 0⟩)]
      (mkTimer "b" "" ⟨2024, 1, 8, 9, 0, 0⟩ (some ⟨2024, 1, 8, 10, 0, 0⟩))
      (by decide)).2 (by decide) (by decide)

end TimeTracker
